import Mathlib

/-!
Verification of the chapter segmentation / TOC splitting / translation pipeline
of the document-extractor repository (`src/pdf_ocr_service.py`), as a shallow
embedding in Lean.  Python strings become `String`/`List Char`, page sequences
become `List String`, the OCR and network collaborators become explicit
oracles, and exceptions become `Except`/`Option` values.
-/

/-- Decidable equality for `Except`, needed to evaluate the embedded
fallible operations on concrete inputs. -/
instance {ε α : Type} [DecidableEq ε] [DecidableEq α] : DecidableEq (Except ε α) := by
  intro x y
  cases x <;> cases y
  case error.error a b =>
    exact if h : a = b then .isTrue (by rw [h]) else .isFalse (by intro hc; cases hc; exact h rfl)
  case error.ok a b => exact .isFalse (by intro hc; cases hc)
  case ok.error a b => exact .isFalse (by intro hc; cases hc)
  case ok.ok a b =>
    exact if h : a = b then .isTrue (by rw [h]) else .isFalse (by intro hc; cases hc; exact h rfl)

namespace DocExtract

/-- Characters treated as whitespace by Python's `str.strip()` and by the
`re` module's whitespace class on text strings. -/
def isPySpace (c : Char) : Bool :=
  c = ' ' || c = '\t' || c = '\n' || c = '\r' || c = '\x0b' || c = '\x0c' ||
  c = ' ' || c = ' ' || (' ' ≤ c && c ≤ ' ') ||
  c = ' ' || c = ' ' || c = ' ' || c = ' ' ||
  c = '　' || c = '\x85' || ('\x1c' ≤ c && c ≤ '\x1f')

/-- Remove the characters satisfying `p` from both ends of a character list
(Python `str.strip(chars)`). -/
def stripEndsWhile (p : Char → Bool) (cs : List Char) : List Char :=
  ((cs.dropWhile p).reverse.dropWhile p).reverse

/-- Python `str.strip()` with no argument: strip Unicode whitespace. -/
def pyStrip (s : String) : String := String.mk (stripEndsWhile isPySpace s.data)

/-- Split a character list at every newline (the separators are dropped). -/
def splitOnNl : List Char → List (List Char)
  | [] => [[]]
  | c :: rest =>
    if c = '\n' then [] :: splitOnNl rest
    else
      match splitOnNl rest with
      | [] => [[c]]
      | l :: ls => (c :: l) :: ls

/-- Python `str.splitlines()` for newline-separated text: empty string gives
no lines, and a trailing newline does not produce a trailing empty line. -/
def pySplitlines (s : String) : List String :=
  if s.data.isEmpty then [] else
    let parts := (splitOnNl s.data).map String.mk
    if parts.getLast? = some "" then parts.dropLast else parts

/-- `[ء-ي]`: the Arabic letter range used throughout the source. -/
def isArabicLetter (c : Char) : Bool := 'ء' ≤ c && c ≤ 'ي'

def isAsciiDigit (c : Char) : Bool := '0' ≤ c && c ≤ '9'

/-- `[٠-٩]`: Arabic-Indic digits. -/
def isArabicIndicDigit (c : Char) : Bool := '٠' ≤ c && c ≤ '٩'

/-- The digit class `[\d٠-٩]` of `_CHAPTER_PATTERNS` (Latin or Arabic-Indic). -/
def isReDigit (c : Char) : Bool := isAsciiDigit c || isArabicIndicDigit c

/-- The word class `[ء-ي0-9]` of the first chapter pattern. -/
def isPat1Word (c : Char) : Bool := isArabicLetter c || isAsciiDigit c

/-- `\s+[ء-ي0-9]+` matched after the keyword of pattern 1. -/
def matchSpacesThenWord (cs : List Char) : Bool :=
  let ws := cs.takeWhile isPySpace
  !ws.isEmpty && !((cs.drop ws.length).takeWhile isPat1Word).isEmpty

/-- `_CHAPTER_PATTERNS[0]`: `^(?:الفصل|باب)\s+([ء-ي0-9]+)`. -/
def chapterPat1 (cs : List Char) : Bool :=
  if cs.take 5 = "الفصل".data then matchSpacesThenWord (cs.drop 5)
  else if cs.take 3 = "باب".data then matchSpacesThenWord (cs.drop 3)
  else false

/-- `_CHAPTER_PATTERNS[1]`: `^(?:فصل)\s*[:\-]?\s*([ء-ي0-9]+)?`.
Everything after the keyword is optional, so the pattern matches exactly when
the line starts with the keyword. -/
def chapterPat2 (cs : List Char) : Bool := cs.take 3 = "فصل".data

/-- `_CHAPTER_PATTERNS[2]`: `^\s*[\d٠-٩]{1,3}\s*[-.،)]\s+`.  A digit run of
length four or more cannot match (backtracking into the run leaves a digit
where the separator class must match). -/
def chapterPat3 (cs : List Char) : Bool :=
  let rest := cs.dropWhile isPySpace
  let ds := rest.takeWhile isReDigit
  if ds.length = 0 || 3 < ds.length then false
  else
    match (rest.drop ds.length).dropWhile isPySpace with
    | [] => false
    | c :: r3 =>
      (c = '-' || c = '.' || c = '،' || c = ')') && !(r3.takeWhile isPySpace).isEmpty

/-- The statistical fallback of `_is_chapter_heading`: a short line (≤ 40
characters) containing a space, no `۔` and no `.`, whose fraction of Arabic
letters exceeds 0.4 (`len(arabic)/max(len(line),1) > 0.4`, i.e.
`5·len(arabic) > 2·max(len(line),1)` exactly). -/
def fallbackHeading (cs : List Char) : Bool :=
  decide (cs.length ≤ 40) && cs.contains ' ' && !cs.contains '۔' && !cs.contains '.' &&
    (let k := (cs.filter isArabicLetter).length
     decide (k ≠ 0) && decide (2 * max cs.length 1 < 5 * k))

/-- `_is_chapter_heading` from `src/pdf_ocr_service.py`. -/
def is_chapter_heading (line : String) : Bool :=
  if line.data.isEmpty then false
  else if chapterPat1 line.data || chapterPat2 line.data || chapterPat3 line.data then true
  else fallbackHeading line.data

/-- The `Chapter` dataclass of the OCR path (`title`, `content` line list,
inclusive `page_start`/`page_end`). -/
structure Chapter where
  title : String
  content : List String
  page_start : Nat
  page_end : Nat
deriving Repr, DecidableEq

/-- One line step of `_segment_chapters`: at page `idx` (already including the
page offset), a heading line with a non-empty current chapter seals the current
chapter at `idx` and opens a fresh one titled by the line; any other line is
appended to the current content. -/
def segLine (idx : Nat) (st : List Chapter × Chapter) (line : String) :
    List Chapter × Chapter :=
  if is_chapter_heading line && !st.2.content.isEmpty then
    (st.1 ++ [{ st.2 with page_end := idx }],
     { title := line, content := [], page_start := idx, page_end := idx })
  else
    (st.1, { st.2 with content := st.2.content ++ [line] })

/-- One page step of `_segment_chapters`: fold the lines, then set the current
chapter's `page_end` to the page index (`current.page_end = idx + page_offset`). -/
def segPage (st : List Chapter × Chapter) (idx : Nat) (pageText : String) :
    List Chapter × Chapter :=
  let st' := (pySplitlines pageText).foldl (segLine idx) st
  (st'.1, { st'.2 with page_end := idx })

/-- The page loop of `_segment_chapters`, with `idx` the (offset-adjusted)
number of the next page. -/
def segRun (st : List Chapter × Chapter) (idx : Nat) : List String → List Chapter × Chapter
  | [] => st
  | p :: ps => segRun (segPage st idx p) (idx + 1) ps

/-- `_segment_chapters(pages, page_offset)`: start from an empty preamble
chapter titled `مقدمة` spanning page `1 + offset`, process every page, and keep
the trailing chapter only if its content is non-empty. -/
def segInit (page_offset : Nat) : List Chapter × Chapter :=
  ([], { title := "مقدمة", content := [], page_start := 1 + page_offset,
         page_end := 1 + page_offset })

def segment_chapters (pages : List String) (page_offset : Nat) : List Chapter :=
  let fin := segRun (segInit page_offset) (1 + page_offset) pages
  if fin.2.content.isEmpty then fin.1 else fin.1 ++ [fin.2]

/-- The segmentation part of `extract_chapters_as_json(pdf_path, start_page)`:
with `start_page > 1`, pages before it are removed and the segmenter receives
the matching page offset.  (The OCR and Arabic-shaping collaborators do not
touch titles' page numbers and are outside the model.) -/
def extract_chapters_as_json (pages : List String) (start_page : Nat) : List Chapter :=
  let page_offset := if 1 < start_page then start_page - 1 else 0
  segment_chapters (pages.drop page_offset) page_offset

/-- Shift a chapter's page bounds by `k` (used to state the offset property). -/
def chShift (k : Nat) (c : Chapter) : Chapter :=
  { c with page_start := c.page_start + k, page_end := c.page_end + k }

/-- The space class `[ \t ]` collapsed by `ARABIC_SPACE_RE`. -/
def isNormSpace (c : Char) : Bool := c = ' ' || c = '\t' || c = '\u00A0'

/-- `ARABIC_SPACE_RE.sub(" ", line)`: replace each maximal run of spaces,
tabs and no-break spaces with a single space.  The flag records whether the
previous character belonged to a run. -/
def collapseSpacesAux : Bool → List Char → List Char
  | _, [] => []
  | inRun, c :: cs =>
    if isNormSpace c then
      if inRun then collapseSpacesAux true cs else ' ' :: collapseSpacesAux true cs
    else c :: collapseSpacesAux false cs

/-- Emit the replacement for a finished run of `pending` dots. -/
def cdEmit (pending : Nat) (rest : List Char) : List Char :=
  if pending = 0 then rest else if pending = 1 then '.' :: rest else '…' :: rest

/-- Automaton for `MULTI_DOT_RE.sub("…", line)`: count the current dot run,
emit `…` for a run of two or more, keep an isolated dot. -/
def collapseDotsAux (pending : Nat) : List Char → List Char
  | [] => cdEmit pending []
  | c :: cs =>
    if c = '.' then collapseDotsAux (pending + 1) cs
    else cdEmit pending (c :: collapseDotsAux 0 cs)

/-- `MULTI_DOT_RE.sub("…", line)`: each maximal run of two or more `.` becomes
a single `…`; an isolated `.` is kept. -/
def collapseDots (cs : List Char) : List Char := collapseDotsAux 0 cs

/-- `_normalize_line(line)` with default flags: strip BOM/directional marks,
collapse space runs, collapse dot runs into an ellipsis, strip whitespace. -/
def normalize_line (s : String) : String :=
  let cs := stripEndsWhile (fun c => c = '﻿' || c = '‏' || c = '‎') s.data
  let cs := collapseSpacesAux false cs
  let cs := collapseDots cs
  String.mk (stripEndsWhile isPySpace cs)

/-- The leader class `[\.·•\-–—\s]` of `_TRAILING_PAGE_RE` (note that the
ellipsis `…` produced by `_normalize_line` is not in it). -/
def isLeaderChar (c : Char) : Bool :=
  c = '.' || c = '·' || c = '•' || c = '-' || c = '–' || c = '—' || isPySpace c

/-- The page-number class `[0-9٠-٩]` of `_TRAILING_PAGE_RE`. -/
def isTocDigit (c : Char) : Bool := isAsciiDigit c || isArabicIndicDigit c

/-- `_arabic_digits_to_int` applied to a pure digit string: Arabic-Indic
digits are translated to Latin before parsing. -/
def tocDigitVal (c : Char) : Nat :=
  if isAsciiDigit c then c.toNat - '0'.toNat else c.toNat - '٠'.toNat

def tocDigitsVal (cs : List Char) : Nat := cs.foldl (fun a c => 10 * a + tocDigitVal c) 0

/-- The `.strip(". \t").strip()` applied to the raw matched title. -/
def stripTocTitle (cs : List Char) : List Char :=
  stripEndsWhile isPySpace (stripEndsWhile (fun c => c = '.' || c = ' ' || c = '\t') cs)

/-- A parsed TOC line: `{title, printed_page}`. -/
structure TocEntry where
  title : String
  printed_page : Nat
deriving Repr, DecidableEq

/-- One line of the TOC loop of `extract_toc_entries_range`: normalize, then
match `_TRAILING_PAGE_RE` (`^(?P<title>.+?)\s*[\.·•\-–—\s]*\s(?P<page>[0-9٠-٩]{1,4})$`).
The page group must be the entire trailing digit run (digits are neither
whitespace nor leader characters), the character before it must be whitespace,
and the lazy title leaves a maximal leader-character run to the separator
while keeping at least one character. -/
def parseTocLine (raw : String) : Option TocEntry :=
  let cs := (normalize_line raw).data
  if cs.isEmpty then none else
  let rev := cs.reverse
  let pRev := rev.takeWhile isTocDigit
  if pRev.length = 0 || 4 < pRev.length then none else
  match rev.drop pRev.length with
  | [] => none
  | w :: preRev =>
    if !isPySpace w then none else
    let mLen := (preRev.takeWhile isLeaderChar).length
    let pre := preRev.reverse
    let tLen := max (pre.length - mLen) 1
    if pre.isEmpty then none else
    some { title := String.mk (stripTocTitle (pre.take tLen)),
           printed_page := tocDigitsVal pRev.reverse }

/-- Stable insertion into a list sorted by `key`: skip only strictly smaller
keys, so the inserted element goes before elements of equal key.  Fed by
`foldr` (which inserts later elements first), this keeps equal-key elements
in their original order, matching Python's stable `list.sort`. -/
def insertByKey {α : Type} (key : α → Nat) (a : α) : List α → List α
  | [] => [a]
  | b :: bs => if key b < key a then b :: insertByKey key a bs else a :: b :: bs

/-- Stable sort by `key` (Python's `list.sort(key=...)` is stable). -/
def sortByKey {α : Type} (key : α → Nat) (l : List α) : List α :=
  l.foldr (insertByKey key) []

/-- The dict-based deduplication of `extract_toc_entries_range`: keep the
first occurrence of each `(title, printed_page)` pair in order. -/
def dedupEntries (l : List TocEntry) : List TocEntry :=
  l.foldl (fun acc e => if acc.contains e then acc else acc ++ [e]) []

/-- `extract_toc_entries_range` on the OCR'd texts of the TOC pages: parse
every line of every page, deduplicate, and sort (stably) by printed page. -/
def extract_toc_entries_range (tocPageTexts : List String) : List TocEntry :=
  let all := tocPageTexts.flatMap (fun t => (pySplitlines t).filterMap parseTocLine)
  sortByKey (·.printed_page) (dedupEntries all)

/-- A retained chapter start of `split_pdf_by_toc`: `{title, pdf_page}`. -/
structure TocStart where
  title : String
  pdf_page : Nat
deriving Repr, DecidableEq

/-- A chapter produced by `split_pdf_by_toc`. -/
structure TocChapter where
  title : String
  start_page : Nat
  end_page : Nat
  text : String
deriving Repr, DecidableEq

/-- The start construction of `split_pdf_by_toc`: map each printed page by the
offset, keep only those inside `[1, total_pages]`, sort by the pdf page. -/
def tocStarts (toc : List TocEntry) (offset : Int) (total : Nat) : List TocStart :=
  sortByKey (·.pdf_page)
    (toc.filterMap (fun e =>
      let p : Int := (e.printed_page : Int) + offset
      if 1 ≤ p ∧ p ≤ (total : Int) then some ⟨e.title, p.toNat⟩ else none))

/-- One materialized chapter of `split_pdf_by_toc`:
`start_idx = max(0, start_p - 1)`, `end_idx = max(start_idx, min(end_p, total))`,
`content = "\n".join(pages[start_idx:end_idx])`. -/
def mkTocChapter (title : String) (startP endP : Nat) (pages : List String) : TocChapter :=
  { title := title, start_page := startP, end_page := endP,
    text := "\n".intercalate ((pages.drop (startP - 1)).take
      (max (startP - 1) (min endP pages.length) - (startP - 1))) }

/-- The chapter loop of `split_pdf_by_toc`: each chapter ends one page before
the next start, the last one at the end of the document. -/
def tocChapters : List TocStart → List String → List TocChapter
  | [], _ => []
  | [s], pages => [mkTocChapter s.title s.pdf_page pages.length pages]
  | s :: s' :: rest, pages =>
    mkTocChapter s.title s.pdf_page (s'.pdf_page - 1) pages :: tocChapters (s' :: rest) pages

/-- `split_pdf_by_toc(pdf_path, ...)` on the OCR'd page texts and TOC page
texts: raises (models as `Except.error`) when no TOC entry parses or when all
entries map outside the page range. -/
def split_pdf_by_toc (pages : List String) (tocPageTexts : List String)
    (printed_to_pdf_offset : Int) : Except String (List TocChapter) :=
  let toc := extract_toc_entries_range tocPageTexts
  if toc.isEmpty then
    .error "No TOC entries detected in the specified page range"
  else
    let starts := tocStarts toc printed_to_pdf_offset pages.length
    if starts.isEmpty then
      .error "TOC pages map outside the PDF range. Adjust the printed offset."
    else
      .ok (tocChapters starts pages)

/-- The possibly nested embedded outline (`reader.outline`): a list whose
items are destinations (whose page resolution may fail, modelled by `Option`)
or nested child lists.  The list structure is folded into the inductive:
`dest t p rest` is a destination item followed by the rest of the list,
`group gs rest` a nested child list followed by the rest. -/
inductive Outline where
  | nil
  | dest (title : String) (page : Option Nat) (rest : Outline)
  | group (items : Outline) (rest : Outline)
deriving Repr

/-- The `flatten` generator of `_chapters_from_outline`: yield non-list items,
recurse into lists, depth-first. -/
def flattenItems : Outline → List (String × Option Nat)
  | .nil => []
  | .dest t p rest => (t, p) :: flattenItems rest
  | .group gs rest => flattenItems gs ++ flattenItems rest

structure OutlineEntry where
  title : String
  start_page : Nat
deriving Repr, DecidableEq

structure OutlineChapter where
  title : String
  start_page : Nat
  end_page : Nat
deriving Repr, DecidableEq

structure OutlineChapterText where
  title : String
  start_page : Nat
  end_page : Nat
  text : String
deriving Repr, DecidableEq

/-- The collection loop of `_chapters_from_outline`: iterate the flattened
outline, skipping every destination whose page resolution raises. -/
def outlineEntries (outline : Outline) : List OutlineEntry :=
  (flattenItems outline).filterMap (fun tp => tp.2.map (fun p => ⟨tp.1, p⟩))

/-- The end-page pass of `_chapters_from_outline`: each chapter's `end_page`
is the next chapter's `start_page`, or the page count for the last one
(exclusive-end convention). -/
def assignEnds : List OutlineEntry → Nat → List OutlineChapter
  | [], _ => []
  | [e], total => [{ title := e.title, start_page := e.start_page, end_page := total }]
  | e :: e' :: rest, total =>
    { title := e.title, start_page := e.start_page, end_page := e'.start_page }
      :: assignEnds (e' :: rest) total

/-- `_chapters_from_outline(reader)`: flatten, resolve (skipping failures),
sort by `start_page`, assign exclusive end pages. -/
def chapters_from_outline (outline : Outline) (totalPages : Nat) :
    List OutlineChapter :=
  assignEnds (sortByKey (·.start_page) (outlineEntries outline)) totalPages

/-- An approximation of the `\w` class for the word boundary in
`_chapters_by_heuristics`' heading regex (ASCII letters, digits, underscore
and Arabic letters; sufficient for the texts considered here). -/
def isWordChar (c : Char) : Bool :=
  ('A' ≤ c && c ≤ 'Z') || ('a' ≤ c && c ≤ 'z') || isAsciiDigit c || c = '_' ||
    isArabicLetter c

/-- Keyword at the start of the line followed by a word boundary. -/
def startsKwB (cs : List Char) (kw : List Char) : Bool :=
  cs.take kw.length = kw &&
    (match cs.drop kw.length with
     | [] => true
     | c :: _ => !isWordChar c)

/-- The second alternative `^\d+\s*[.-]\s+.+` of the heading regex in
`_chapters_by_heuristics`.  A digit run followed by optional spaces, a dot or
dash, then at least one whitespace character and at least one further
character. -/
def numberedHeading (cs : List Char) : Bool :=
  let ds := cs.takeWhile isReDigit
  if ds.isEmpty then false else
  match (cs.drop ds.length).dropWhile isPySpace with
  | c :: w :: _ :: _ => (c = '.' || c = '-') && isPySpace w
  | _ => false

/-- The heading regex of `_chapters_by_heuristics`:
`^(?:CHAPTER|Chapter|SECTION|Section)\b|^\d+\s*[.-]\s+.+`. -/
def heading_re_match (cs : List Char) : Bool :=
  startsKwB cs "CHAPTER".data || startsKwB cs "Chapter".data ||
  startsKwB cs "SECTION".data || startsKwB cs "Section".data || numberedHeading cs

/-- The per-page heading search of `_chapters_by_heuristics`: strip the page
text, look at its first five lines, return the first stripped line matching
the heading regex. -/
def findHeadingLine (text : String) : Option String :=
  (((pySplitlines (pyStrip text)).take 5).map pyStrip).find?
    (fun ln => heading_re_match ln.data)

/-- The page loop of `_chapters_by_heuristics`: `cur` holds the pending
`(current_title, current_start)` once a first heading has been seen. -/
def cbhLoop (chs : List OutlineChapter) (cur : Option (String × Nat)) (i : Nat) :
    List String → List OutlineChapter × Option (String × Nat)
  | [] => (chs, cur)
  | p :: ps =>
    match findHeadingLine p, cur with
    | some f, none => cbhLoop chs (some (f, i)) (i + 1) ps
    | some f, some tc =>
      cbhLoop (chs ++ [{ title := tc.1, start_page := tc.2, end_page := i }])
        (some (f, i)) (i + 1) ps
    | none, _ => cbhLoop chs cur (i + 1) ps

/-- `_chapters_by_heuristics(reader)` on the page texts: detect heading pages,
close each chapter at the next heading page (exclusive end), and fall back to
a single whole-document chapter when no heading is found. -/
def chapters_by_heuristics (pages : List String) : List OutlineChapter :=
  let fin := cbhLoop [] none 0 pages
  let chs :=
    match fin.2 with
    | some tc => fin.1 ++ [{ title := tc.1, start_page := tc.2, end_page := pages.length }]
    | none => fin.1
  if chs.isEmpty then [{ title := "Document", start_page := 0, end_page := pages.length }]
  else chs

/-- The body extraction of `split_pdf_into_chapters`: join the non-empty page
texts of `[start, min(end, total))` with newlines. -/
def chapterText (pages : List String) (startP endP : Nat) : String :=
  "\n".intercalate
    (((pages.drop startP).take (min endP pages.length - startP)).filter (fun t => t != ""))

/-- `split_pdf_into_chapters(file_path)` on the embedded outline and page
texts: outline chapters, else heuristic chapters, each filled with its body
text. -/
def split_pdf_into_chapters (outline : Outline) (pages : List String) :
    List OutlineChapterText :=
  let chapters := chapters_from_outline outline pages.length
  let chapters := if chapters.isEmpty then chapters_by_heuristics pages else chapters
  chapters.map (fun c =>
    { title := c.title, start_page := c.start_page, end_page := c.end_page,
      text := chapterText pages c.start_page c.end_page })

/-- The paragraph splitter `re.split(r"\n{2,}", text)`: maximal runs of two or
more newlines separate paragraphs; a single newline stays inside one.
`cur` accumulates the current paragraph reversed, `pending` counts the
newlines not yet classified. -/
def splitParasAux (cur : List Char) (pending : Nat) : List Char → List (List Char)
  | [] =>
    if 2 ≤ pending then [cur.reverse, []]
    else [(List.replicate pending '\n' ++ cur).reverse]
  | c :: cs =>
    if c = '\n' then splitParasAux cur (pending + 1) cs
    else if 2 ≤ pending then cur.reverse :: splitParasAux [c] 0 cs
    else splitParasAux (c :: (List.replicate pending '\n' ++ cur)) 0 cs

def splitParas (text : String) : List String :=
  (splitParasAux [] 0 text.data).map String.mk

/-- `"\n\n".join(buf)`. -/
def joinParas (l : List String) : String := "\n\n".intercalate l

/-- The block chunking loop of `translate_text`: flush the buffer when adding
the next paragraph would push the accumulated size over 1800 characters. -/
def buildPiecesAux (pieces buf : List String) (size : Nat) : List String → List String
  | [] => if buf.isEmpty then pieces else pieces ++ [joinParas buf]
  | para :: rest =>
    if 1800 < size + para.length && !buf.isEmpty then
      buildPiecesAux (pieces ++ [joinParas buf]) [para] para.length rest
    else buildPiecesAux pieces (buf ++ [para]) (size + para.length) rest

def buildPieces (text : String) : List String :=
  buildPiecesAux [] [] 0 (splitParas text)

/-- The attempt loop of `_try_translate(chunk, retries)`: try the attempts in
order against the translation service (modelled as an oracle mapping chunk
and attempt number to an optional result; the backoff sleep has no observable
effect on the returned value).  Returns the first success. -/
def tryTranslateLoop (svc : String → Nat → Option String) (chunk : String) :
    List Nat → Option String
  | [] => none
  | a :: rest =>
    match svc chunk a with
    | some r => some r
    | none => tryTranslateLoop svc chunk rest

/-- `_try_translate(chunk, retries=3)`: attempts `range(3)`, `none` after
three failures. -/
def tryTranslate (svc : String → Nat → Option String) (chunk : String) : Option String :=
  tryTranslateLoop svc chunk (List.range 3)

/-- Sentence-terminal characters of the sentence splitter's lookbehind
(`(?<=[\.\!\?؟])`). -/
def isSentPunct (c : Char) : Bool := c = '.' || c = '!' || c = '?' || c = '؟'

/-- State of the sentence-splitter automaton: reading token characters,
inside a whitespace separator run, or inside a newline separator run. -/
inductive SentMode where
  | tok
  | wsRun
  | nlRun

/-- The sentence splitter `re.split(r"(?<=[\.\!\?؟])\s+|\n+", block)` as an
automaton.  In `tok` mode, `prev` is the previously consumed character (for
the lookbehind); a separator run emits the current token. -/
def splitSentAux : SentMode → List Char → Char → List Char → List (List Char)
  | .tok, cur, _, [] => [cur.reverse]
  | .wsRun, _, _, [] => [[]]
  | .nlRun, _, _, [] => [[]]
  | .tok, cur, prev, c :: cs =>
    if isPySpace c && isSentPunct prev then cur.reverse :: splitSentAux .wsRun [] c cs
    else if c = '\n' then cur.reverse :: splitSentAux .nlRun [] c cs
    else splitSentAux .tok (c :: cur) c cs
  | .wsRun, _, _, c :: cs =>
    if isPySpace c then splitSentAux .wsRun [] c cs
    else splitSentAux .tok [c] c cs
  | .nlRun, _, _, c :: cs =>
    if c = '\n' then splitSentAux .nlRun [] c cs
    else splitSentAux .tok [c] c cs

def splitSentences (block : String) : List String :=
  (splitSentAux .tok [] '\x00' block.data).map String.mk

/-- The per-sentence fallback loop of `translate_text`: strip each sentence,
skip empty ones, keep the original sentence verbatim when translation still
fails. -/
def sentenceResults (svc : String → Nat → Option String) (block : String) : List String :=
  (splitSentences block).foldl
    (fun so s =>
      let s' := pyStrip s
      if s'.isEmpty then so
      else
        match tryTranslate svc s' with
        | none => so ++ [s']
        | some t => so ++ [t])
    []

/-- The output for a block whose whole-block translation failed. -/
def blockResult (svc : String → Nat → Option String) (block : String) : String :=
  " ".intercalate (sentenceResults svc block)

/-- `translate_text(text, target_lang)` against the service oracle `svc`
(the target language is fixed inside the oracle): chunk into paragraph
blocks, translate each with retries, re-split failing blocks by sentence. -/
def translate_text (svc : String → Nat → Option String) (text : String) : String :=
  if text.isEmpty then "" else
  let results := (buildPieces text).foldl
    (fun acc block =>
      if (pyStrip block).isEmpty then acc
      else
        match tryTranslate svc block with
        | some out => acc ++ [out]
        | none => acc ++ [blockResult svc block])
    []
  pyStrip ("\n\n".intercalate results)

/-- A chapter dict as consumed by `translate_chapters_parallel` (fields other
than `text` are carried through unchanged; one suffices for the model). -/
structure XChapter where
  title : String
  text : String
deriving Repr, DecidableEq

/-- `max_workers = max(1, min(int(max_workers or 3), 8))` (note `0 or 3 = 3`
in Python). -/
def clampWorkers (mw : Int) : Nat :=
  (max 1 (min (if mw = 0 then 3 else mw) 8)).toNat

/-- The `work` closure of `translate_chapters_parallel`. -/
def translateWork (svc : String → Nat → Option String) (ch : XChapter) : XChapter :=
  { ch with text := translate_text svc ch.text }

/-- Completion of one future: write slot `i`, substituting the unmodified
original chapter when that worker failed. -/
def fillSlot (svc : String → Nat → Option String) (chapters : List XChapter)
    (failAt : Nat → Bool) (slots : List (Option XChapter)) (i : Nat) :
    List (Option XChapter) :=
  slots.set i
    (some (if failAt i then chapters.getD i { title := "", text := "" }
           else translateWork svc (chapters.getD i { title := "", text := "" })))

/-- `translate_chapters_parallel(chapters, ...)`: `results = [None] * n`, then
each future's slot is filled as it completes; `order` is the completion order
of the futures (a permutation of the indices), `failAt` tells which workers
raised. -/
def translate_chapters_parallel (svc : String → Nat → Option String)
    (chapters : List XChapter) (failAt : Nat → Bool) (order : List Nat) :
    List (Option XChapter) :=
  order.foldl (fillSlot svc chapters failAt) (List.replicate chapters.length none)

/-- Spec-side body of a TOC chapter (for the refinement statement of the
materialization claim): the concatenation of the page texts of physical pages
`[a, b]`, inclusive on both ends. -/
def specTocBody (pages : List String) (a b : Nat) : String :=
  "\n".intercalate ((pages.drop (a - 1)).take (b + 1 - a))

/-- Spec-side chapter materialization, following the spec's words: chapter `i`
spans `[entries[i].physical_page, entries[i+1].physical_page - 1]` inclusive,
the last chapter runs to the end of the document. -/
def specTocChapters : List TocStart → Nat → List String → List TocChapter
  | [], _, _ => []
  | [s], total, pages =>
    [{ title := s.title, start_page := s.pdf_page, end_page := total,
       text := specTocBody pages s.pdf_page total }]
  | s :: s2 :: rest, total, pages =>
    { title := s.title, start_page := s.pdf_page, end_page := s2.pdf_page - 1,
      text := specTocBody pages s.pdf_page (s2.pdf_page - 1) }
      :: specTocChapters (s2 :: rest) total pages

/-- Adjacency of consecutive heuristic chapters: a chapter's last page is the
page on which the next chapter's heading was found. -/
def RChain (a b : Chapter) : Prop := a.page_end = b.page_start

/-- Invariant of the segmentation state: finished chapters plus the current
one are chained by `RChain`, their bounds are ordered and lie within
`[1 + off, bound]`, the first starts at page `1 + off`, and every finished
chapter has non-empty content. -/
def SegStB (off bound : Nat) (st : List Chapter × Chapter) : Prop :=
  List.Chain' RChain (st.1 ++ [st.2]) ∧
  (∀ c ∈ st.1 ++ [st.2],
    1 + off ≤ c.page_start ∧ c.page_start ≤ c.page_end ∧ c.page_end ≤ bound) ∧
  (∀ c, (st.1 ++ [st.2]).head? = some c → c.page_start = 1 + off) ∧
  (∀ c ∈ st.1, c.content ≠ [])

/-- Shift a whole segmentation state by `k` pages. -/
def stShift (k : Nat) (st : List Chapter × Chapter) : List Chapter × Chapter :=
  (st.1.map (chShift k), chShift k st.2)

/-- The value that ends up in slot `i` of the parallel-translation result:
the translated chapter, or the unmodified original when that worker failed. -/
def slotVal (svc : String → Nat → Option String) (chapters : List XChapter)
    (failAt : Nat → Bool) (i : Nat) : XChapter :=
  if failAt i then chapters.getD i { title := "", text := "" }
  else translateWork svc (chapters.getD i { title := "", text := "" })

/-- A single 2500-character paragraph (no newlines), used to evaluate the
block chunking on an oversized paragraph. -/
def bigPara : String := String.mk (List.replicate 2500 'a')

end DocExtract

namespace DocExtract

theorem chain'_replace_last {l : List Chapter} {a b : Chapter}
    (hab : b.page_start = a.page_start) (h : List.Chain' RChain (l ++ [a])) :
    List.Chain' RChain (l ++ [b]) := by
  rw [List.chain'_append] at h ⊢
  refine ⟨h.1, List.chain'_singleton _, ?_⟩
  intro x hx y hy
  simp only [List.head?_cons, Option.mem_def, Option.some.injEq] at hy
  subst hy
  have hx2 := h.2.2 x hx a (by simp)
  show x.page_end = b.page_start
  rw [hab]
  exact hx2

theorem chain'_snoc_chapter {l : List Chapter} {a f : Chapter}
    (h : List.Chain' RChain (l ++ [a])) (haf : RChain a f) :
    List.Chain' RChain (l ++ [a, f]) := by
  have : l ++ [a, f] = (l ++ [a]) ++ [f] := by simp
  rw [this, List.chain'_append]
  refine ⟨h, List.chain'_singleton _, ?_⟩
  intro x hx y hy
  simp only [List.getLast?_concat, Option.mem_def, Option.some.injEq] at hx
  simp only [List.head?_cons, Option.mem_def, Option.some.injEq] at hy
  subst hx; subst hy
  exact haf

theorem head_start_pres {l t : List Chapter} {a b : Chapter} {p : Nat}
    (hab : b.page_start = a.page_start)
    (h : ∀ c, (l ++ [a]).head? = some c → c.page_start = p) :
    ∀ c, (l ++ b :: t).head? = some c → c.page_start = p := by
  intro c hc
  cases l with
  | nil =>
    simp only [List.nil_append, List.head?_cons, Option.some.injEq] at hc
    subst hc
    rw [hab]
    exact h a (by simp)
  | cons x xs =>
    simp only [List.cons_append, List.head?_cons, Option.some.injEq] at hc
    subst hc
    exact h x (by simp)

theorem segSealEnd_pres {off idx : Nat} {st : List Chapter × Chapter}
    (h : SegStB off idx st) :
    SegStB off idx (st.1, { st.2 with page_end := idx }) := by
  obtain ⟨hch, hbd, hhd, hne⟩ := h
  refine ⟨chain'_replace_last (a := st.2) rfl hch, ?_,
    head_start_pres (a := st.2) rfl hhd, hne⟩
  intro c hc'
  simp only [List.mem_append, List.mem_singleton] at hc'
  rcases hc' with hc' | hc'
  · exact hbd c (by simp [hc'])
  · subst hc'
    have hb := hbd st.2 (by simp)
    exact ⟨hb.1, le_trans hb.2.1 hb.2.2, le_refl _⟩

theorem segLine_pres {off idx : Nat} {st : List Chapter × Chapter} {line : String}
    (h : SegStB off idx st) (hoff : 1 + off ≤ idx) :
    SegStB off idx (segLine idx st line) := by
  obtain ⟨hch, hbd, hhd, hne⟩ := h
  unfold segLine
  by_cases hc : (is_chapter_heading line && !st.2.content.isEmpty) = true
  · rw [if_pos hc]
    refine ⟨?_, ?_, ?_, ?_⟩
    · show List.Chain' RChain ((st.1 ++ [_]) ++ [_])
      rw [List.append_assoc]
      exact chain'_snoc_chapter (chain'_replace_last (a := st.2) rfl hch) rfl
    · intro c hc'
      simp only [List.append_assoc, List.singleton_append, List.mem_append, List.mem_cons,
        List.not_mem_nil, or_false] at hc'
      rcases hc' with hc' | hc' | hc'
      · exact hbd c (by simp [hc'])
      · subst hc'
        have hb := hbd st.2 (by simp)
        exact ⟨hb.1, le_trans hb.2.1 hb.2.2, le_refl _⟩
      · subst hc'
        exact ⟨hoff, le_refl _, le_refl _⟩
    · have hh := head_start_pres (l := st.1) (a := st.2)
        (b := { st.2 with page_end := idx })
        (t := [{ title := line, content := [], page_start := idx, page_end := idx }]) rfl hhd
      intro c hc'
      rw [List.append_assoc] at hc'
      exact hh c hc'
    · intro c hc'
      simp only [List.mem_append, List.mem_singleton] at hc'
      rcases hc' with hc' | hc'
      · exact hne c hc'
      · subst hc'
        simp only [Bool.and_eq_true, Bool.not_eq_true'] at hc
        show st.2.content ≠ []
        intro habs
        rw [habs] at hc
        simp at hc
  · rw [if_neg hc]
    refine ⟨chain'_replace_last (a := st.2) rfl hch, ?_,
      head_start_pres (a := st.2) rfl hhd, hne⟩
    intro c hc'
    simp only [List.mem_append, List.mem_singleton] at hc'
    rcases hc' with hc' | hc'
    · exact hbd c (by simp [hc'])
    · subst hc'
      exact hbd st.2 (by simp)

theorem segFold_pres {off idx : Nat} {st : List Chapter × Chapter}
    (lines : List String) (h : SegStB off idx st) (hoff : 1 + off ≤ idx) :
    SegStB off idx (lines.foldl (segLine idx) st) := by
  induction lines generalizing st with
  | nil => exact h
  | cons l ls ih => exact ih (segLine_pres h hoff)

theorem segPage_pres {off idx : Nat} {st : List Chapter × Chapter} {p : String}
    (h : SegStB off idx st) (hoff : 1 + off ≤ idx) :
    SegStB off idx (segPage st idx p) :=
  segSealEnd_pres (segFold_pres (pySplitlines p) h hoff)

theorem segStB_mono {off b b' : Nat} {st : List Chapter × Chapter}
    (h : SegStB off b st) (hb : b ≤ b') : SegStB off b' st := by
  obtain ⟨hch, hbd, hhd, hne⟩ := h
  refine ⟨hch, ?_, hhd, hne⟩
  intro c hc'
  have := hbd c hc'
  exact ⟨this.1, this.2.1, le_trans this.2.2 hb⟩

theorem segRun_pres {off : Nat} :
    ∀ (pages : List String) (st : List Chapter × Chapter) (idx : Nat),
      pages ≠ [] → SegStB off idx st → 1 + off ≤ idx →
      SegStB off (idx + pages.length - 1) (segRun st idx pages) := by
  intro pages
  induction pages with
  | nil => intro st idx hne; exact absurd rfl hne
  | cons p ps ih =>
    intro st idx _ h hoff
    show SegStB off (idx + (ps.length + 1) - 1) (segRun (segPage st idx p) (idx + 1) ps)
    cases ps with
    | nil =>
      simp only [segRun, List.length_nil, Nat.zero_add, Nat.add_sub_cancel]
      exact segPage_pres h hoff
    | cons q qs =>
      have h1 : SegStB off (idx + 1) (segPage st idx p) :=
        segStB_mono (segPage_pres h hoff) (Nat.le_succ idx)
      have h2 := ih (segPage st idx p) (idx + 1) (by simp) h1 (le_trans hoff (Nat.le_succ idx))
      have : idx + 1 + (q :: qs).length - 1 = idx + ((q :: qs).length + 1) - 1 := by omega
      rw [← this]
      exact h2

theorem segInit_inv (off : Nat) : SegStB off (1 + off) (segInit off) := by
  refine ⟨List.chain'_singleton _, ?_, ?_, by simp [segInit]⟩
  · intro c hc
    simp only [segInit, List.nil_append, List.mem_singleton] at hc
    subst hc
    exact ⟨le_refl _, le_refl _, le_refl _⟩
  · intro c hc
    simp only [segInit, List.nil_append, List.head?_cons, Option.some.injEq] at hc
    subst hc
    rfl

theorem segment_chapters_props (pages : List String) (off : Nat) :
    List.Chain' RChain (segment_chapters pages off) ∧
    (∀ c ∈ segment_chapters pages off,
      1 + off ≤ c.page_start ∧ c.page_start ≤ c.page_end ∧ c.page_end ≤ pages.length + off) ∧
    (∀ c, (segment_chapters pages off).head? = some c → c.page_start = 1 + off) ∧
    (∀ c ∈ segment_chapters pages off, c.content ≠ []) := by
  have hdef : segment_chapters pages off =
      (if (segRun (segInit off) (1 + off) pages).2.content.isEmpty then
        (segRun (segInit off) (1 + off) pages).1
      else
        (segRun (segInit off) (1 + off) pages).1 ++
          [(segRun (segInit off) (1 + off) pages).2]) := rfl
  cases hp : pages with
  | nil =>
    subst hp
    simp [hdef, segRun, segInit]
  | cons p ps =>
    rw [← hp]
    have hfin := @segRun_pres off pages _ (1 + off) (by rw [hp]; simp)
      (segInit_inv off) (le_refl _)
    have hbnd : 1 + off + pages.length - 1 = pages.length + off := by
      rw [hp]
      simp only [List.length_cons]
      omega
    rw [hbnd] at hfin
    obtain ⟨hch, hbd, hhd, hne⟩ := hfin
    rw [hdef]
    by_cases hemp : (segRun (segInit off) (1 + off) pages).2.content.isEmpty
    · simp only [hemp, if_true]
      refine ⟨(List.chain'_append.mp hch).1, ?_, ?_, hne⟩
      · intro c hc
        exact hbd c (by simp [hc])
      · intro c hc
        apply hhd
        rw [List.head?_append, hc]
        rfl
    · simp only [hemp, if_false]
      refine ⟨hch, hbd, hhd, ?_⟩
      intro c hc
      rcases List.mem_append.mp hc with hc1 | hc1
      · exact hne c hc1
      · rw [List.mem_singleton] at hc1
        subst hc1
        intro habs
        rw [habs] at hemp
        exact hemp rfl

theorem segLine_shift (k idx : Nat) (st : List Chapter × Chapter) (line : String) :
    segLine (idx + k) (stShift k st) line = stShift k (segLine idx st line) := by
  unfold segLine stShift chShift
  by_cases hc : (is_chapter_heading line && !st.2.content.isEmpty) = true
  · rw [if_pos (by simpa using hc), if_pos hc]
    simp
  · rw [if_neg (by simpa using hc), if_neg hc]

theorem segFold_shift (k idx : Nat) (lines : List String) (st : List Chapter × Chapter) :
    lines.foldl (segLine (idx + k)) (stShift k st) =
      stShift k (lines.foldl (segLine idx) st) := by
  induction lines generalizing st with
  | nil => rfl
  | cons l ls ih => rw [List.foldl_cons, List.foldl_cons, segLine_shift, ih]

theorem segPage_shift (k idx : Nat) (st : List Chapter × Chapter) (p : String) :
    segPage (stShift k st) (idx + k) p = stShift k (segPage st idx p) := by
  unfold segPage
  rw [segFold_shift]
  rfl

theorem segRun_shift (k : Nat) :
    ∀ (pages : List String) (st : List Chapter × Chapter) (idx : Nat),
      segRun (stShift k st) (idx + k) pages = stShift k (segRun st idx pages) := by
  intro pages
  induction pages with
  | nil => intro st idx; rfl
  | cons p ps ih =>
    intro st idx
    show segRun (segPage (stShift k st) (idx + k) p) (idx + k + 1) ps = _
    rw [segPage_shift]
    have : idx + k + 1 = (idx + 1) + k := by omega
    rw [this, ih]
    rfl

theorem segFin_shift (k : Nat) (st : List Chapter × Chapter) :
    (if (stShift k st).2.content.isEmpty then (stShift k st).1
     else (stShift k st).1 ++ [(stShift k st).2]) =
    (if st.2.content.isEmpty then st.1 else st.1 ++ [st.2]).map (chShift k) := by
  have hcontent : (stShift k st).2.content = st.2.content := rfl
  by_cases hemp : st.2.content.isEmpty
  · rw [if_pos (by rw [hcontent]; exact hemp), if_pos hemp]
    rfl
  · rw [if_neg (by rw [hcontent]; exact hemp), if_neg hemp]
    simp [stShift]

theorem segment_chapters_shift (pages : List String) (k : Nat) :
    segment_chapters pages k = (segment_chapters pages 0).map (chShift k) := by
  have hinit : segInit k = stShift k (segInit 0) := by
    simp [segInit, stShift, chShift]
  have h1k : 1 + k = 1 + 0 + k := by omega
  simp only [segment_chapters]
  rw [hinit, h1k, segRun_shift k pages (segInit 0) (1 + 0)]
  exact segFin_shift k _

theorem tocChapters_head_start (s : TocStart) (rest : List TocStart) (pages : List String) :
    ∃ c, (tocChapters (s :: rest) pages).head? = some c ∧ c.start_page = s.pdf_page := by
  cases rest with
  | nil => exact ⟨_, rfl, rfl⟩
  | cons s2 rest2 => exact ⟨_, rfl, rfl⟩

theorem tocChapters_chain (pages : List String) :
    ∀ starts : List TocStart, (∀ x ∈ starts, 1 ≤ x.pdf_page) →
      List.Chain' (fun a b => a.end_page + 1 = b.start_page) (tocChapters starts pages) := by
  intro starts
  induction starts with
  | nil => intro _; exact List.chain'_nil
  | cons s rest ih =>
    intro h
    cases rest with
    | nil => exact List.chain'_singleton _
    | cons s2 rest2 =>
      show List.Chain' _ (mkTocChapter s.title s.pdf_page (s2.pdf_page - 1) pages
        :: tocChapters (s2 :: rest2) pages)
      rw [List.chain'_cons']
      refine ⟨?_, ih (fun x hx => h x (List.mem_cons_of_mem s hx))⟩
      intro y hy
      obtain ⟨c, hc, hcs⟩ := tocChapters_head_start s2 rest2 pages
      rw [hc] at hy
      simp only [Option.mem_def, Option.some.injEq] at hy
      subst hy
      have h2 : 1 ≤ s2.pdf_page := h s2 (by simp)
      show (s2.pdf_page - 1) + 1 = c.start_page
      rw [hcs]
      omega

theorem tocChapters_ends (pages : List String) :
    ∀ starts : List TocStart,
      (tocChapters starts pages).map (·.end_page) =
        starts.tail.map (fun s => s.pdf_page - 1) ++
          (if starts.isEmpty then [] else [pages.length]) := by
  intro starts
  induction starts with
  | nil => rfl
  | cons s rest ih =>
    cases rest with
    | nil => rfl
    | cons s2 rest2 =>
      show ((mkTocChapter s.title s.pdf_page (s2.pdf_page - 1) pages)
          :: tocChapters (s2 :: rest2) pages).map (·.end_page) = _
      rw [List.map_cons, ih]
      rfl

theorem tocChapters_starts_titles (pages : List String) :
    ∀ starts : List TocStart,
      (tocChapters starts pages).map (fun c => (c.title, c.start_page)) =
        starts.map (fun s => (s.title, s.pdf_page)) := by
  intro starts
  induction starts with
  | nil => rfl
  | cons s rest ih =>
    cases rest with
    | nil => rfl
    | cons s2 rest2 =>
      show ((mkTocChapter s.title s.pdf_page (s2.pdf_page - 1) pages)
          :: tocChapters (s2 :: rest2) pages).map _ = _
      rw [List.map_cons, ih]
      rfl

theorem tocChapters_bounds (pages : List String) :
    ∀ starts : List TocStart,
      (∀ x ∈ starts, 1 ≤ x.pdf_page ∧ x.pdf_page ≤ pages.length) →
      List.Chain' (fun a b : TocStart => a.pdf_page < b.pdf_page) starts →
      ∀ c ∈ tocChapters starts pages, c.start_page ≤ c.end_page := by
  intro starts
  induction starts with
  | nil => intro _ _ c hc; simp [tocChapters] at hc
  | cons s rest ih =>
    intro h hs c hc
    cases rest with
    | nil =>
      simp only [tocChapters, List.mem_singleton] at hc
      subst hc
      show s.pdf_page ≤ pages.length
      exact (h s (by simp)).2
    | cons s2 rest2 =>
      rw [show tocChapters (s :: s2 :: rest2) pages =
        mkTocChapter s.title s.pdf_page (s2.pdf_page - 1) pages
          :: tocChapters (s2 :: rest2) pages from rfl, List.mem_cons] at hc
      rcases hc with hc | hc
      · subst hc
        show s.pdf_page ≤ s2.pdf_page - 1
        have h12 : s.pdf_page < s2.pdf_page := (List.chain'_cons.mp hs).1
        omega
      · exact ih (fun x hx => h x (List.mem_cons_of_mem s hx))
          (List.chain'_cons.mp hs).2 c hc

theorem tocChapters_eq_spec (pages : List String) :
    ∀ starts : List TocStart,
      (∀ x ∈ starts, 1 ≤ x.pdf_page ∧ x.pdf_page ≤ pages.length) →
      List.Chain' (fun a b : TocStart => a.pdf_page ≤ b.pdf_page) starts →
      tocChapters starts pages = specTocChapters starts pages.length pages := by
  intro starts
  induction starts with
  | nil => intro _ _; rfl
  | cons s rest ih =>
    intro h hs
    cases rest with
    | nil =>
      obtain ⟨h1, h2⟩ := h s (by simp)
      show [mkTocChapter s.title s.pdf_page pages.length pages] = _
      unfold mkTocChapter specTocChapters specTocBody
      have hcnt : max (s.pdf_page - 1) (min pages.length pages.length) - (s.pdf_page - 1)
          = pages.length + 1 - s.pdf_page := by
        rw [Nat.min_self, Nat.max_eq_right (by omega)]
        omega
      rw [hcnt]
    | cons s2 rest2 =>
      obtain ⟨h1, h2⟩ := h s (by simp)
      obtain ⟨h21, h22⟩ := h s2 (by simp)
      have h12 : s.pdf_page ≤ s2.pdf_page := (List.chain'_cons.mp hs).1
      show mkTocChapter s.title s.pdf_page (s2.pdf_page - 1) pages
          :: tocChapters (s2 :: rest2) pages = _
      rw [ih (fun x hx => h x (List.mem_cons_of_mem s hx)) (List.chain'_cons.mp hs).2]
      show _ :: _ = _ :: _
      congr 1
      unfold mkTocChapter specTocBody
      have hcnt : max (s.pdf_page - 1) (min (s2.pdf_page - 1) pages.length) - (s.pdf_page - 1)
          = (s2.pdf_page - 1) + 1 - s.pdf_page := by
        rw [Nat.min_eq_left (by omega), Nat.max_eq_right (by omega)]
        omega
      rw [hcnt]

theorem insertByKey_perm {α : Type} (key : α → Nat) (a : α) (l : List α) :
    List.Perm (insertByKey key a l) (a :: l) := by
  induction l with
  | nil => exact List.Perm.refl _
  | cons b bs ih =>
    unfold insertByKey
    by_cases h : key b < key a
    · rw [if_pos h]
      exact (ih.cons b).trans (List.Perm.swap a b bs)
    · rw [if_neg h]

theorem sortByKey_perm {α : Type} (key : α → Nat) (l : List α) :
    List.Perm (sortByKey key l) l := by
  induction l with
  | nil => exact List.Perm.refl _
  | cons a as ih =>
    show List.Perm (insertByKey key a (sortByKey key as)) _
    exact (insertByKey_perm key a _).trans (ih.cons a)

theorem insertByKey_pairwise {α : Type} (key : α → Nat) (a : α) (l : List α)
    (h : List.Pairwise (fun x y => key x ≤ key y) l) :
    List.Pairwise (fun x y => key x ≤ key y) (insertByKey key a l) := by
  induction l with
  | nil => exact List.pairwise_singleton _ _
  | cons b bs ih =>
    rw [List.pairwise_cons] at h
    unfold insertByKey
    by_cases hba : key b < key a
    · rw [if_pos hba]
      rw [List.pairwise_cons]
      refine ⟨?_, ih h.2⟩
      intro y hy
      have hy' := (insertByKey_perm key a bs).mem_iff.mp hy
      rcases List.mem_cons.mp hy' with hy' | hy'
      · subst hy'
        omega
      · exact h.1 y hy'
    · rw [if_neg hba]
      rw [List.pairwise_cons]
      refine ⟨?_, List.pairwise_cons.mpr h⟩
      intro y hy
      rcases List.mem_cons.mp hy with hy | hy
      · subst hy
        omega
      · have := h.1 y hy
        omega

theorem sortByKey_pairwise {α : Type} (key : α → Nat) (l : List α) :
    List.Pairwise (fun x y => key x ≤ key y) (sortByKey key l) := by
  induction l with
  | nil => exact List.Pairwise.nil
  | cons a as ih =>
    show List.Pairwise _ (insertByKey key a (sortByKey key as))
    exact insertByKey_pairwise key a _ ih

theorem chain'_start_mono {α : Type} (s e : α → Nat) {R : α → α → Prop} :
    ∀ {l : List α}, List.Chain' R l → (∀ c ∈ l, s c ≤ e c) →
      (∀ a b, R a b → e a ≤ s b) →
      List.Chain' (fun a b => s a ≤ s b) l := by
  intro l
  induction l with
  | nil => intro _ _ _; exact List.chain'_nil
  | cons a rest ih =>
    intro h hb himp
    rw [List.chain'_cons'] at h ⊢
    refine ⟨?_, ih h.2 (fun c hc => hb c (List.mem_cons_of_mem a hc)) himp⟩
    intro y hy
    exact le_trans (hb a (by simp)) (himp a y (h.1 y hy))

theorem assignEnds_start_pages (total : Nat) :
    ∀ entries : List OutlineEntry,
      (assignEnds entries total).map (·.start_page) = entries.map (·.start_page) := by
  intro entries
  induction entries with
  | nil => rfl
  | cons e rest ih =>
    cases rest with
    | nil => rfl
    | cons e2 rest2 =>
      show (OutlineChapter.mk e.title e.start_page e2.start_page
          :: assignEnds (e2 :: rest2) total).map (·.start_page) = _
      rw [List.map_cons, ih]
      rfl

theorem assignEnds_bounds (total : Nat) :
    ∀ entries : List OutlineEntry,
      (∀ x ∈ entries, x.start_page ≤ total) →
      List.Chain' (fun a b : OutlineEntry => a.start_page ≤ b.start_page) entries →
      ∀ c ∈ assignEnds entries total, c.start_page ≤ c.end_page := by
  intro entries
  induction entries with
  | nil => intro _ _ c hc; simp [assignEnds] at hc
  | cons e rest ih =>
    intro h hs c hc
    cases rest with
    | nil =>
      simp only [assignEnds, List.mem_singleton] at hc
      subst hc
      exact h e (by simp)
    | cons e2 rest2 =>
      rw [show assignEnds (e :: e2 :: rest2) total =
        OutlineChapter.mk e.title e.start_page e2.start_page
          :: assignEnds (e2 :: rest2) total from rfl, List.mem_cons] at hc
      rcases hc with hc | hc
      · subst hc
        exact (List.chain'_cons.mp hs).1
      · exact ih (fun x hx => h x (List.mem_cons_of_mem e hx)) (List.chain'_cons.mp hs).2 c hc

theorem chapters_from_outline_sorted (outline : Outline) (total : Nat) :
    List.Chain' (fun a b : OutlineChapter => a.start_page ≤ b.start_page)
      (chapters_from_outline outline total) := by
  have hch : List.Chain' (fun x y : OutlineEntry => x.start_page ≤ y.start_page)
      (sortByKey (·.start_page) (outlineEntries outline)) :=
    (sortByKey_pairwise _ _).chain'
  refine (List.chain'_map (fun c : OutlineChapter => c.start_page)).mp ?_
  show List.Chain' (· ≤ ·) ((assignEnds (sortByKey (·.start_page)
    (outlineEntries outline)) total).map (·.start_page))
  rw [assignEnds_start_pages]
  exact (List.chain'_map (fun x : OutlineEntry => x.start_page)).mpr hch

theorem chapters_from_outline_bounds (outline : Outline) (total : Nat)
    (h : ∀ x ∈ outlineEntries outline, x.start_page ≤ total) :
    ∀ c ∈ chapters_from_outline outline total, c.start_page ≤ c.end_page := by
  apply assignEnds_bounds
  · intro x hx
    exact h x ((sortByKey_perm _ _).mem_iff.mp hx)
  · exact (sortByKey_pairwise _ _).chain'

theorem outlineEntries_group (gs rest : Outline) :
    outlineEntries (.group gs rest) = outlineEntries gs ++ outlineEntries rest := by
  unfold outlineEntries
  rw [show flattenItems (.group gs rest) = flattenItems gs ++ flattenItems rest from rfl]
  exact List.filterMap_append _ _ _

theorem outlineEntries_dest_skip (t : String) (rest : Outline) :
    outlineEntries (.dest t none rest) = outlineEntries rest := rfl

theorem outlineEntries_dest_keep (t : String) (p : Nat) (rest : Outline) :
    outlineEntries (.dest t (some p) rest) =
      { title := t, start_page := p } :: outlineEntries rest := rfl

theorem assignEnds_head_start (e : OutlineEntry) (rest : List OutlineEntry) (total : Nat) :
    ∃ c, (assignEnds (e :: rest) total).head? = some c ∧ c.start_page = e.start_page := by
  cases rest with
  | nil => exact ⟨_, rfl, rfl⟩
  | cons e2 rest2 => exact ⟨_, rfl, rfl⟩

theorem assignEnds_chain (total : Nat) :
    ∀ entries : List OutlineEntry,
      List.Chain' (fun a b => a.end_page = b.start_page) (assignEnds entries total) := by
  intro entries
  induction entries with
  | nil => exact List.chain'_nil
  | cons e rest ih =>
    cases rest with
    | nil => exact List.chain'_singleton _
    | cons e2 rest2 =>
      show List.Chain' _
        (OutlineChapter.mk e.title e.start_page e2.start_page :: assignEnds (e2 :: rest2) total)
      rw [List.chain'_cons']
      refine ⟨?_, ih⟩
      intro y hy
      obtain ⟨c, hc, hcs⟩ := assignEnds_head_start e2 rest2 total
      rw [hc] at hy
      simp only [Option.mem_def, Option.some.injEq] at hy
      subst hy
      show e2.start_page = c.start_page
      rw [hcs]

theorem assignEnds_ends (total : Nat) :
    ∀ entries : List OutlineEntry,
      (assignEnds entries total).map (·.end_page) =
        entries.tail.map (·.start_page) ++
          (if entries.isEmpty then [] else [total]) := by
  intro entries
  induction entries with
  | nil => rfl
  | cons e rest ih =>
    cases rest with
    | nil => rfl
    | cons e2 rest2 =>
      show (OutlineChapter.mk e.title e.start_page e2.start_page
          :: assignEnds (e2 :: rest2) total).map (·.end_page) = _
      rw [List.map_cons, ih]
      rfl

theorem assignEnds_starts (total : Nat) :
    ∀ entries : List OutlineEntry,
      (assignEnds entries total).map (fun c => (c.title, c.start_page)) =
        entries.map (fun e => (e.title, e.start_page)) := by
  intro entries
  induction entries with
  | nil => rfl
  | cons e rest ih =>
    cases rest with
    | nil => rfl
    | cons e2 rest2 =>
      show (OutlineChapter.mk e.title e.start_page e2.start_page
          :: assignEnds (e2 :: rest2) total).map _ = _
      rw [List.map_cons, ih]
      rfl

theorem assignEnds_ends_self (total : Nat) :
    ∀ entries : List OutlineEntry,
      (assignEnds entries total).map (·.end_page) =
        (assignEnds entries total).tail.map (·.start_page) ++
          (if (assignEnds entries total).isEmpty then [] else [total]) := by
  intro entries
  induction entries with
  | nil => rfl
  | cons e rest ih =>
    cases rest with
    | nil => rfl
    | cons e2 rest2 =>
      show (OutlineChapter.mk e.title e.start_page e2.start_page
          :: assignEnds (e2 :: rest2) total).map (·.end_page) = _
      rw [List.map_cons, ih]
      cases rest2 with
      | nil => rfl
      | cons e3 rest3 => rfl

theorem cbhLoop_no_heading :
    ∀ (pages : List String) (chs : List OutlineChapter) (cur : Option (String × Nat)) (i : Nat),
      (∀ p ∈ pages, findHeadingLine p = none) →
      cbhLoop chs cur i pages = (chs, cur) := by
  intro pages
  induction pages with
  | nil => intro chs cur i _; rfl
  | cons p ps ih =>
    intro chs cur i h
    have hp : findHeadingLine p = none := h p (by simp)
    show cbhLoop chs cur i (p :: ps) = _
    unfold cbhLoop
    rw [hp]
    exact ih chs cur (i + 1) (fun q hq => h q (List.mem_cons_of_mem p hq))

theorem chapters_by_heuristics_no_heading (pages : List String)
    (h : ∀ p ∈ pages, findHeadingLine p = none) :
    chapters_by_heuristics pages =
      [{ title := "Document", start_page := 0, end_page := pages.length }] := by
  unfold chapters_by_heuristics
  rw [cbhLoop_no_heading pages [] none 0 h]
  rfl

theorem cbhLoop_acc :
    ∀ (pages : List String) (chs : List OutlineChapter) (cur : Option (String × Nat)) (i : Nat),
      chs ≠ [] ∨ cur.isSome →
      (cbhLoop chs cur i pages).1 ≠ [] ∨ (cbhLoop chs cur i pages).2.isSome := by
  intro pages
  induction pages with
  | nil => intro chs cur i h; exact h
  | cons p ps ih =>
    intro chs cur i h
    show (cbhLoop chs cur i (p :: ps)).1 ≠ [] ∨ _
    unfold cbhLoop
    cases hf : findHeadingLine p with
    | none => exact ih chs cur (i + 1) h
    | some f =>
      cases hc : cur with
      | none => exact ih chs (some (f, i)) (i + 1) (Or.inr rfl)
      | some tc =>
        exact ih (chs ++ [OutlineChapter.mk tc.1 tc.2 i]) (some (f, i)) (i + 1)
          (Or.inl (by simp))

theorem chapters_by_heuristics_ne_nil (pages : List String) :
    chapters_by_heuristics pages ≠ [] := by
  unfold chapters_by_heuristics
  cases hcur : (cbhLoop [] none 0 pages).2 with
  | none =>
    cases hchs : (cbhLoop [] none 0 pages).1 with
    | nil => simp [hchs, hcur]
    | cons a l => simp [hchs, hcur]
  | some tc =>
    cases hchs : (cbhLoop [] none 0 pages).1 with
    | nil => simp [hchs, hcur]
    | cons a l => simp [hchs, hcur]

theorem split_pdf_into_chapters_ne_nil (outline : Outline) (pages : List String) :
    split_pdf_into_chapters outline pages ≠ [] := by
  simp only [split_pdf_into_chapters]
  by_cases hout : (chapters_from_outline outline pages.length).isEmpty
  · rw [if_pos hout]
    intro habs
    exact chapters_by_heuristics_ne_nil pages (List.map_eq_nil_iff.mp habs)
  · rw [if_neg hout]
    intro habs
    rw [List.map_eq_nil_iff.mp habs] at hout
    exact hout rfl

theorem split_pdf_into_chapters_fallback (outline : Outline) (pages : List String)
    (h : chapters_from_outline outline pages.length = []) :
    split_pdf_into_chapters outline pages =
      (chapters_by_heuristics pages).map (fun c =>
        { title := c.title, start_page := c.start_page, end_page := c.end_page,
          text := chapterText pages c.start_page c.end_page }) := by
  simp only [split_pdf_into_chapters]
  rw [if_pos (by rw [h]; rfl)]

theorem split_pdf_into_chapters_outline (outline : Outline) (pages : List String)
    (h : chapters_from_outline outline pages.length ≠ []) :
    split_pdf_into_chapters outline pages =
      (chapters_from_outline outline pages.length).map (fun c =>
        { title := c.title, start_page := c.start_page, end_page := c.end_page,
          text := chapterText pages c.start_page c.end_page }) := by
  simp only [split_pdf_into_chapters]
  rw [if_neg (by intro habs; exact h (List.isEmpty_iff.mp habs))]

theorem chapterText_slice (pages : List String) (a b : Nat) (hb : b ≤ pages.length) :
    chapterText pages a b =
      "\n".intercalate (((pages.drop a).take (b - a)).filter (fun t => t != "")) := by
  unfold chapterText
  rw [Nat.min_eq_left hb]

theorem buildPiecesAux_inv :
    ∀ (paras pieces buf : List String) (size : Nat),
      (∀ b ∈ pieces, ∃ ps : List String, ps ≠ [] ∧ b = joinParas ps ∧
        (ps.length = 1 ∨ (ps.map String.length).sum ≤ 1800)) →
      size = (buf.map String.length).sum →
      (buf = [] ∨ buf.length = 1 ∨ (buf.map String.length).sum ≤ 1800) →
      ∀ b ∈ buildPiecesAux pieces buf size paras,
        ∃ ps : List String, ps ≠ [] ∧ b = joinParas ps ∧
          (ps.length = 1 ∨ (ps.map String.length).sum ≤ 1800) := by
  intro paras
  induction paras with
  | nil =>
    intro pieces buf size hp hsz hbuf b hb
    unfold buildPiecesAux at hb
    by_cases hbe : buf.isEmpty
    · rw [if_pos hbe] at hb
      exact hp b hb
    · rw [if_neg hbe] at hb
      rcases List.mem_append.mp hb with hb1 | hb1
      · exact hp b hb1
      · rw [List.mem_singleton] at hb1
        subst hb1
        refine ⟨buf, ?_, rfl, ?_⟩
        · intro habs; rw [habs] at hbe; exact hbe rfl
        · rcases hbuf with hbuf | hbuf
          · exact absurd (by rw [hbuf]; rfl) hbe
          · exact hbuf
  | cons para rest ih =>
    intro pieces buf size hp hsz hbuf b hb
    unfold buildPiecesAux at hb
    by_cases hcond : (1800 < size + para.length && !buf.isEmpty) = true
    · rw [if_pos hcond] at hb
      simp only [Bool.and_eq_true, decide_eq_true_eq, Bool.not_eq_true'] at hcond
      have hbufne : buf ≠ [] := by
        intro habs
        rw [habs] at hcond
        exact absurd hcond.2 (by decide)
      refine ih (pieces ++ [joinParas buf]) [para] para.length ?_ (by simp)
        (Or.inr (Or.inl rfl)) b hb
      intro b2 hb2
      rcases List.mem_append.mp hb2 with hb3 | hb3
      · exact hp b2 hb3
      · rw [List.mem_singleton] at hb3
        subst hb3
        refine ⟨buf, hbufne, rfl, ?_⟩
        rcases hbuf with hbuf | hbuf
        · exact absurd hbuf hbufne
        · exact hbuf
    · rw [if_neg hcond] at hb
      refine ih pieces (buf ++ [para]) (size + para.length) hp (by simp [hsz]) ?_ b hb
      by_cases hbe : buf = []
      · subst hbe
        exact Or.inr (Or.inl (by simp))
      · have hle : size + para.length ≤ 1800 := by
          by_contra hgt
          apply hcond
          simp only [Bool.and_eq_true, decide_eq_true_eq, Bool.not_eq_true']
          refine ⟨by omega, ?_⟩
          cases buf with
          | nil => exact absurd rfl hbe
          | cons x xs => rfl
        right; right
        simp only [List.map_append, List.sum_append, List.map_cons, List.map_nil,
          List.sum_cons, List.sum_nil]
        omega

theorem tryTranslateLoop_none_iff (svc : String → Nat → Option String) (chunk : String) :
    ∀ l : List Nat, tryTranslateLoop svc chunk l = none ↔ ∀ a ∈ l, svc chunk a = none := by
  intro l
  induction l with
  | nil => simp [tryTranslateLoop]
  | cons a rest ih =>
    unfold tryTranslateLoop
    cases ha : svc chunk a with
    | some r =>
      simp only [List.mem_cons]
      constructor
      · intro h; exact absurd h (by simp)
      · intro h
        exact absurd (h a (Or.inl rfl)) (by rw [ha]; simp)
    | none =>
      rw [ih]
      constructor
      · intro h b hb
        rcases List.mem_cons.mp hb with hb | hb
        · subst hb; exact ha
        · exact h b hb
      · intro h b hb
        exact h b (List.mem_cons_of_mem a hb)

theorem tryTranslate_none_iff (svc : String → Nat → Option String) (chunk : String) :
    tryTranslate svc chunk = none ↔ ∀ a, a < 3 → svc chunk a = none := by
  unfold tryTranslate
  rw [tryTranslateLoop_none_iff]
  constructor
  · intro h a ha
    exact h a (List.mem_range.mpr ha)
  · intro h a ha
    exact h a (List.mem_range.mp ha)

theorem tryTranslateLoop_some (svc : String → Nat → Option String) (chunk : String) :
    ∀ (l : List Nat) (r : String), tryTranslateLoop svc chunk l = some r →
      ∃ i, i < l.length ∧ svc chunk (l.getD i 0) = some r ∧
        ∀ j, j < i → svc chunk (l.getD j 0) = none := by
  intro l
  induction l with
  | nil => intro r h; exact absurd h (by simp [tryTranslateLoop])
  | cons a rest ih =>
    intro r h
    unfold tryTranslateLoop at h
    cases ha : svc chunk a with
    | some r0 =>
      rw [ha] at h
      simp only [Option.some.injEq] at h
      subst h
      exact ⟨0, by simp, ha, by omega⟩
    | none =>
      rw [ha] at h
      obtain ⟨i, hi, hsome, hbefore⟩ := ih r h
      refine ⟨i + 1, by simpa using hi, hsome, ?_⟩
      intro j hj
      cases j with
      | zero => exact ha
      | succ j0 => exact hbefore j0 (by omega)

theorem tryTranslate_some (svc : String → Nat → Option String) (chunk r : String) :
    tryTranslate svc chunk = some r →
      ∃ a, a < 3 ∧ svc chunk a = some r ∧ ∀ b, b < a → svc chunk b = none := by
  intro h
  obtain ⟨i, hi, hsome, hbefore⟩ := tryTranslateLoop_some svc chunk (List.range 3) r h
  rw [List.length_range] at hi
  have hget : ∀ k, k < 3 → (List.range 3).getD k 0 = k := by
    intro k hk
    interval_cases k <;> rfl
  refine ⟨i, hi, by rw [← hget i hi]; exact hsome, ?_⟩
  intro b hb
  rw [← hget b (by omega)]
  exact hbefore b hb

theorem sentenceResults_eq (svc : String → Nat → Option String) (block : String) :
    sentenceResults svc block =
      (splitSentences block).filterMap (fun s =>
        if (pyStrip s).isEmpty then none
        else some ((tryTranslate svc (pyStrip s)).getD (pyStrip s))) := by
  unfold sentenceResults
  have key : ∀ (l : List String) (acc : List String),
      l.foldl (fun so s =>
        if (pyStrip s).isEmpty then so
        else match tryTranslate svc (pyStrip s) with
          | none => so ++ [pyStrip s]
          | some t => so ++ [t]) acc =
      acc ++ l.filterMap (fun s =>
        if (pyStrip s).isEmpty then none
        else some ((tryTranslate svc (pyStrip s)).getD (pyStrip s))) := by
    intro l
    induction l with
    | nil => intro acc; simp
    | cons s rest ih =>
      intro acc
      rw [List.foldl_cons, List.filterMap_cons]
      by_cases hse : (pyStrip s).isEmpty
      · rw [if_pos hse, if_pos hse, ih]
      · rw [if_neg hse, if_neg hse]
        cases ht : tryTranslate svc (pyStrip s) with
        | none => rw [ih]; simp
        | some t => rw [ih]; simp
  exact key (splitSentences block) []

theorem splitParasAux_no_newline :
    ∀ (cs cur : List Char), (∀ c ∈ cs, c ≠ '\n') →
      splitParasAux cur 0 cs = [cur.reverse ++ cs] := by
  intro cs
  induction cs with
  | nil => intro cur _; simp [splitParasAux]
  | cons c rest ih =>
    intro cur h
    have hc : c ≠ '\n' := h c (by simp)
    unfold splitParasAux
    rw [if_neg hc, if_neg (by omega)]
    rw [show List.replicate 0 '\n' ++ cur = cur from rfl]
    rw [ih (c :: cur) (fun x hx => h x (List.mem_cons_of_mem c hx))]
    simp

theorem buildPieces_single_para (s : String) (h : ∀ c ∈ s.data, c ≠ '\n') :
    buildPieces s = [s] := by
  unfold buildPieces splitParas
  rw [splitParasAux_no_newline s.data [] h]
  show buildPiecesAux [] [] 0 [String.mk s.data] = [s]
  have hs : String.mk s.data = s := by
    cases s
    rfl
  rw [hs]
  unfold buildPiecesAux
  rw [if_neg (by simp)]
  unfold buildPiecesAux
  rw [if_neg (by simp)]
  rfl

theorem fillFold_getElem (svc : String → Nat → Option String) (chapters : List XChapter)
    (failAt : Nat → Bool) :
    ∀ (order : List Nat) (slots : List (Option XChapter)) (i : Nat),
      (∀ j ∈ order, j < slots.length) →
      (order.foldl (fillSlot svc chapters failAt) slots)[i]? =
        if i ∈ order then some (some (slotVal svc chapters failAt i)) else slots[i]? := by
  intro order
  induction order with
  | nil =>
    intro slots i _
    rw [if_neg (by simp)]
    rfl
  | cons j rest ih =>
    intro slots i horder
    rw [List.foldl_cons]
    rw [ih (fillSlot svc chapters failAt slots j) i
      (fun k hk => by rw [show (fillSlot svc chapters failAt slots j).length = slots.length
        from List.length_set ..]; exact horder k (List.mem_cons_of_mem j hk))]
    by_cases hmem : i ∈ rest
    · rw [if_pos hmem, if_pos (List.mem_cons_of_mem j hmem)]
    · rw [if_neg hmem]
      by_cases hij : i = j
      · subst hij
        rw [if_pos (by simp)]
        show (slots.set i _)[i]? = _
        rw [List.getElem?_set]
        rw [if_pos rfl, if_pos (horder i (by simp))]
        rfl
      · rw [if_neg (by simp [hij, hmem])]
        show (slots.set j _)[i]? = _
        rw [List.getElem?_set]
        rw [if_neg (fun habs => hij habs.symm)]

theorem fillFold_length (svc : String → Nat → Option String) (chapters : List XChapter)
    (failAt : Nat → Bool) :
    ∀ (order : List Nat) (slots : List (Option XChapter)),
      (order.foldl (fillSlot svc chapters failAt) slots).length = slots.length := by
  intro order
  induction order with
  | nil => intro slots; rfl
  | cons j rest ih =>
    intro slots
    rw [List.foldl_cons, ih]
    exact List.length_set ..

/-- C1 counterexample: on the two-page input `["نص عربي هنا", "فصل الأول\nالمتن"]`
the heuristic segmenter seals the preamble at the heading's page, so
`chapters[0].page_end = 2 = chapters[1].page_start`: the claimed adjacency
`page_end + 1 = page_start` is false and the two chapters overlap on page 2.
Moreover a TOC whose first entry maps to physical page 3 of a five-page
document yields a single chapter spanning `[3, 5]`, so pages 1–2 are covered
by no chapter: single-strategy boundaries need not cover `[1, total_pages]`. -/
theorem C1_counterexample :
    (((segment_chapters ["نص عربي هنا", "فصل الأول\nالمتن"] 0).get? 0).map
        Chapter.page_end = some 2 ∧
      ((segment_chapters ["نص عربي هنا", "فصل الأول\nالمتن"] 0).get? 1).map
        Chapter.page_start = some 2 ∧
      ¬(2 + 1 = 2)) ∧
    (split_pdf_by_toc ["A", "B", "C", "D", "E"] ["Mid .... 3\n"] 0 =
        .ok [{ title := "Mid …", start_page := 3, end_page := 5, text := "C\nD\nE" }] ∧
      ∀ ch ∈ [({ title := "Mid …", start_page := 3, end_page := 5, text := "C\nD\nE" } : TocChapter)],
        ¬(ch.start_page ≤ 1 ∧ 1 ≤ ch.end_page)) := by
  decide

/-- C1 (amended): chapters of each single strategy are ordered by
`page_start` and chained, with each strategy's own adjacency: the heuristic
segmenter produces chapters with `page_start ≤ page_end` chained by
`page_end = next.page_start` (the heading's page is shared by the sealed and
the new chapter), starting at page `1 + offset` and staying within
`[1 + offset, total + offset]`; the TOC splitter (for retained starts that
are strictly increasing and inside `[1, total]`) produces chapters with
`start_page ≤ end_page` chained by `end_page + 1 = next.start_page` and the
last chapter ending at `total`; the outline strategy produces chapters
ordered by `start_page` and chained by `end_page = next.start_page` with the
last ending at the page count, and `start_page ≤ end_page` holds provided
every resolved outline entry's page is within the document.  Coverage of the
whole range `[1, total]` is guaranteed by none of them: TOC and outline
chapters begin at the first boundary. -/
theorem C1_partition_amended :
    (∀ (pages : List String) (off : Nat),
      List.Chain' (fun a b => a.page_end = b.page_start) (segment_chapters pages off) ∧
      List.Chain' (fun a b => a.page_start ≤ b.page_start) (segment_chapters pages off) ∧
      (∀ c ∈ segment_chapters pages off,
        1 + off ≤ c.page_start ∧ c.page_start ≤ c.page_end ∧ c.page_end ≤ pages.length + off) ∧
      (∀ c, (segment_chapters pages off).head? = some c → c.page_start = 1 + off)) ∧
    (∀ (pages : List String) (starts : List TocStart),
      (∀ x ∈ starts, 1 ≤ x.pdf_page ∧ x.pdf_page ≤ pages.length) →
      List.Chain' (fun a b : TocStart => a.pdf_page < b.pdf_page) starts →
      List.Chain' (fun a b => a.end_page + 1 = b.start_page) (tocChapters starts pages) ∧
      List.Chain' (fun a b => a.start_page ≤ b.start_page) (tocChapters starts pages) ∧
      (∀ c ∈ tocChapters starts pages, c.start_page ≤ c.end_page) ∧
      (tocChapters starts pages).map (·.end_page) =
        starts.tail.map (fun x => x.pdf_page - 1) ++
          (if starts.isEmpty then [] else [pages.length])) ∧
    (∀ (outline : Outline) (total : Nat),
      List.Chain' (fun a b => a.end_page = b.start_page)
        (chapters_from_outline outline total) ∧
      List.Chain' (fun a b => a.start_page ≤ b.start_page)
        (chapters_from_outline outline total) ∧
      ((∀ x ∈ outlineEntries outline, x.start_page ≤ total) →
        ∀ c ∈ chapters_from_outline outline total, c.start_page ≤ c.end_page) ∧
      (chapters_from_outline outline total).map (·.end_page) =
        (chapters_from_outline outline total).tail.map (·.start_page) ++
          (if (chapters_from_outline outline total).isEmpty then [] else [total])) := by
  refine ⟨?_, ?_, ?_⟩
  · intro pages off
    obtain ⟨h1, h2, h3, -⟩ := segment_chapters_props pages off
    refine ⟨h1, ?_, h2, h3⟩
    exact chain'_start_mono Chapter.page_start Chapter.page_end h1
      (fun c hc => (h2 c hc).2.1) (fun a b hr => le_of_eq hr)
  · intro pages starts hr hs
    have hch := tocChapters_chain pages starts (fun x hx => (hr x hx).1)
    have hbd := tocChapters_bounds pages starts hr hs
    refine ⟨hch, ?_, hbd, tocChapters_ends pages starts⟩
    exact chain'_start_mono TocChapter.start_page TocChapter.end_page hch hbd
      (fun a b hr2 => by omega)
  · intro outline total
    exact ⟨assignEnds_chain total _, chapters_from_outline_sorted outline total,
      chapters_from_outline_bounds outline total, assignEnds_ends_self total _⟩

/-- C1 witness: the amended TOC conjunct applied to a concrete sorted,
in-range start list, and the outline bounds conjunct applied to a concrete
in-range outline. -/
theorem C1_partition_amended_witness :
    (List.Chain' (fun a b : TocChapter => a.end_page + 1 = b.start_page)
      (tocChapters [⟨"A", 1⟩, ⟨"B", 3⟩] ["p", "q", "r", "s"]) ∧
    (∀ c ∈ tocChapters [⟨"A", 1⟩, ⟨"B", 3⟩] ["p", "q", "r", "s"],
      c.start_page ≤ c.end_page)) ∧
    (∀ c ∈ chapters_from_outline (.dest "A" (some 0) (.dest "B" (some 2) .nil)) 3,
      c.start_page ≤ c.end_page) :=
  ⟨⟨(C1_partition_amended.2.1 ["p", "q", "r", "s"] [⟨"A", 1⟩, ⟨"B", 3⟩]
      (by decide) (List.chain'_cons.mpr ⟨by decide, List.chain'_singleton _⟩)).1,
    (C1_partition_amended.2.1 ["p", "q", "r", "s"] [⟨"A", 1⟩, ⟨"B", 3⟩]
      (by decide) (List.chain'_cons.mpr ⟨by decide, List.chain'_singleton _⟩)).2.2.1⟩,
   (C1_partition_amended.2.2 (.dest "A" (some 0) (.dest "B" (some 2) .nil)) 3).2.2.1
     (by decide)⟩

/-- C2: a line starts a new chapter (sealing the current one at the current
page and titling the new one by the line) exactly when it is a heading and
the current chapter has content, any other line is appended; every emitted
chapter has non-empty content (an empty trailing chapter is dropped); the
page offset shifts every emitted page bound; and a `start_page > 1` drops the
pages before it and shifts all bounds so they refer to original document
page numbers. -/
theorem C2_segmenter_step :
    (∀ (idx : Nat) (chs : List Chapter) (cur : Chapter) (line : String),
      is_chapter_heading line = true → cur.content ≠ [] →
      segLine idx (chs, cur) line =
        (chs ++ [{ cur with page_end := idx }],
         { title := line, content := [], page_start := idx, page_end := idx })) ∧
    (∀ (idx : Nat) (chs : List Chapter) (cur : Chapter) (line : String),
      is_chapter_heading line = false ∨ cur.content = [] →
      segLine idx (chs, cur) line = (chs, { cur with content := cur.content ++ [line] })) ∧
    (∀ (pages : List String) (off : Nat) (c : Chapter),
      c ∈ segment_chapters pages off → c.content ≠ []) ∧
    (∀ (pages : List String) (k : Nat),
      segment_chapters pages k = (segment_chapters pages 0).map (chShift k)) ∧
    (∀ (pages : List String) (s : Nat), 1 < s →
      extract_chapters_as_json pages s =
        (segment_chapters (pages.drop (s - 1)) 0).map (chShift (s - 1))) := by
  refine ⟨?_, ?_, ?_, ?_, ?_⟩
  · intro idx chs cur line h1 h2
    unfold segLine
    rw [if_pos]
    simp only [h1, Bool.true_and, Bool.not_eq_true', List.isEmpty_eq_false]
    exact h2
  · intro idx chs cur line h
    unfold segLine
    rw [if_neg]
    intro habs
    simp only [Bool.and_eq_true, Bool.not_eq_true', List.isEmpty_eq_false] at habs
    rcases h with h | h
    · rw [h] at habs
      exact absurd habs.1 (by decide)
    · exact habs.2 h
  · intro pages off c hc
    exact (segment_chapters_props pages off).2.2.2 c hc
  · intro pages k
    exact segment_chapters_shift pages k
  · intro pages s hs
    simp only [extract_chapters_as_json]
    rw [if_pos hs]
    exact segment_chapters_shift _ (s - 1)

/-- C2 witness: the heading step and the `start_page` shift evaluated on
concrete inputs. -/
theorem C2_segmenter_step_witness :
    segLine 2 ([], ⟨"مقدمة", ["نص"], 1, 1⟩) "فصل الأول" =
      ([{ title := "مقدمة", content := ["نص"], page_start := 1, page_end := 2 }],
       { title := "فصل الأول", content := [], page_start := 2, page_end := 2 }) ∧
    extract_chapters_as_json ["a", "نص عربي هنا"] 2 =
      (segment_chapters ((["a", "نص عربي هنا"] : List String).drop 1) 0).map (chShift 1) :=
  ⟨C2_segmenter_step.1 2 [] ⟨"مقدمة", ["نص"], 1, 1⟩ "فصل الأول" (by decide) (by simp),
   C2_segmenter_step.2.2.2.2 ["a", "نص عربي هنا"] 2 (by omega)⟩

/-- C3 counterexample: the body line `ما هو الحل؟` ends in the
sentence-terminal question mark `؟` (normal punctuation) and matches no
structural chapter pattern, yet `_is_chapter_heading` classifies it as a
heading — the code's fallback rejects only the two period characters `.` and
`۔`, so lines bearing other normal punctuation are not excluded. -/
theorem C3_counterexample :
    is_chapter_heading "ما هو الحل؟" = true ∧
    '؟' ∈ "ما هو الحل؟".data ∧
    chapterPat1 "ما هو الحل؟".data = false ∧
    chapterPat2 "ما هو الحل؟".data = false ∧
    chapterPat3 "ما هو الحل؟".data = false := by
  decide

/-- C3 (amended): `_is_chapter_heading` returns `false` on the empty line; it
returns `true` on every line that matches none of the structural chapter
patterns but is at most 40 characters long, has an interior space, contains
no sentence-terminal punctuation and whose fraction of Arabic letters exceeds
0.4; and a non-structural body line containing a sentence-terminal period
(`.` or `۔`) is never classified as a heading — only those two period
characters are excluded, so lines with other normal punctuation (such as `؟`,
`!` or `،`) can still be classified as headings when the fallback conditions
hold. -/
theorem C3_is_heading :
    (is_chapter_heading "" = false) ∧
    (∀ line : String,
      chapterPat1 line.data = false → chapterPat2 line.data = false →
      chapterPat3 line.data = false →
      line.data.length ≤ 40 →
      (∃ l₁ l₂ : List Char, line.data = l₁ ++ ' ' :: l₂ ∧ l₁ ≠ [] ∧ l₂ ≠ []) →
      '.' ∉ line.data → '۔' ∉ line.data → '!' ∉ line.data → '?' ∉ line.data →
      '؟' ∉ line.data →
      2 * line.data.length < 5 * (line.data.filter isArabicLetter).length →
      is_chapter_heading line = true) ∧
    (∀ line : String,
      chapterPat1 line.data = false → chapterPat2 line.data = false →
      chapterPat3 line.data = false →
      ('.' ∈ line.data ∨ '۔' ∈ line.data) →
      is_chapter_heading line = false) := by
  refine ⟨by decide, ?_, ?_⟩
  · intro line h1 h2 h3 hlen hsp hdot hdd _ _ _ hfrac
    obtain ⟨l₁, l₂, heq, hl1, hl2⟩ := hsp
    have hne : line.data.isEmpty = false := by
      rw [heq]
      cases l₁ with
      | nil => exact absurd rfl hl1
      | cons x xs => rfl
    have hlen1 : 1 ≤ line.data.length := by
      rw [heq, List.length_append]
      simp only [List.length_cons]
      omega
    unfold is_chapter_heading
    rw [if_neg (by rw [hne]; exact Bool.false_ne_true), h1, h2, h3]
    rw [if_neg (by decide)]
    unfold fallbackHeading
    have hsp' : line.data.contains ' ' = true := by
      show line.data.elem ' ' = true
      exact List.elem_iff.mpr (by rw [heq]; exact List.mem_append.mpr (Or.inr (by simp)))
    have hnd : line.data.contains '۔' = false := by
      rw [Bool.eq_false_iff]
      intro habs
      exact hdd (List.elem_iff.mp habs)
    have hnp : line.data.contains '.' = false := by
      rw [Bool.eq_false_iff]
      intro habs
      exact hdot (List.elem_iff.mp habs)
    rw [decide_eq_true hlen, hsp', hnd, hnp]
    show (true && true && !false && !false &&
      (decide ((line.data.filter isArabicLetter).length ≠ 0) &&
        decide (2 * max line.data.length 1 < 5 * (line.data.filter isArabicLetter).length)))
        = true
    rw [decide_eq_true (by omega : (line.data.filter isArabicLetter).length ≠ 0)]
    rw [decide_eq_true (by rw [Nat.max_eq_left hlen1]; exact hfrac)]
    rfl
  · intro line h1 h2 h3 hmem
    unfold is_chapter_heading
    by_cases hemp : line.data.isEmpty
    · rw [if_pos hemp]
    · rw [if_neg hemp, h1, h2, h3]
      rw [if_neg (by decide)]
      rw [Bool.eq_false_iff]
      intro habs
      unfold fallbackHeading at habs
      simp only [Bool.and_eq_true, Bool.not_eq_true'] at habs
      rcases hmem with hmem | hmem
      · have hc : line.data.contains '.' = true := List.elem_iff.mpr hmem
        rw [habs.1.2] at hc
        exact absurd hc (by decide)
      · have hc : line.data.contains '۔' = true := List.elem_iff.mpr hmem
        rw [habs.1.1.2] at hc
        exact absurd hc (by decide)

/-- C3 witness: the fallback accepts a short punctuation-free Arabic line and
rejects a non-structural line containing a period. -/
theorem C3_is_heading_witness :
    is_chapter_heading "كتاب جميل" = true ∧ is_chapter_heading "نص عادي." = false :=
  ⟨C3_is_heading.2.1 "كتاب جميل" (by decide) (by decide) (by decide) (by decide)
     ⟨"كتاب".data, "جميل".data, by decide, by decide, by decide⟩
     (by decide) (by decide) (by decide) (by decide) (by decide) (by decide),
   C3_is_heading.2.2 "نص عادي." (by decide) (by decide) (by decide) (Or.inl (by decide))⟩

/-- C7 counterexample: on the spec's scenario input the heuristic segmenter
returns one chapter, not three: the Latin-script lines `Chapter One` and
`Chapter Two` contain no Arabic letters and match no chapter pattern, so they
are not headings. -/
theorem C7_counterexample :
    (segment_chapters ["Intro text.", "Chapter One\nBody A.", "Chapter Two\nBody B."] 0).map
        (fun c => (c.title, c.content, c.page_start, c.page_end)) =
      [("مقدمة", ["Intro text.", "Chapter One", "Body A.", "Chapter Two", "Body B."], 1, 3)] ∧
    ¬((segment_chapters ["Intro text.", "Chapter One\nBody A.", "Chapter Two\nBody B."] 0).length
        = 3) := by
  decide

/-- C7 (amended): segmenting the input pages
`["Intro text.", "Chapter One\nBody A.", "Chapter Two\nBody B."]` with the
heuristic strategy yields exactly one chapter: the placeholder (`مقدمة`)
preamble spanning pages 1–3 and containing all five lines in order, because
the English heading lines are not recognised by the Arabic-oriented
heuristic. -/
theorem C7_heuristic_scenario_amended :
    segment_chapters ["Intro text.", "Chapter One\nBody A.", "Chapter Two\nBody B."] 0 =
      [{ title := "مقدمة",
         content := ["Intro text.", "Chapter One", "Body A.", "Chapter Two", "Body B."],
         page_start := 1, page_end := 3 }] := by
  decide

/-- C4: the TOC splitter materializes chapter `i` with body equal to the
(newline-joined) concatenation of the page texts of physical pages
`[starts[i].pdf_page, starts[i+1].pdf_page - 1]` inclusive, the last chapter
running to the end of the document (stated as a refinement against the
spec-side `specTocChapters` for retained starts that are sorted and inside
`[1, total]`); and the TOC text `"Introduction .... 1\nChapter One .... 5\n"`
with offset 0 over a 10-page document yields exactly two chapters, the
Introduction entry spanning physical pages 1–4 and the Chapter One entry
spanning 5–10. -/
theorem C4_toc_materialization :
    (∀ (pages : List String) (starts : List TocStart),
      (∀ x ∈ starts, 1 ≤ x.pdf_page ∧ x.pdf_page ≤ pages.length) →
      List.Chain' (fun a b : TocStart => a.pdf_page ≤ b.pdf_page) starts →
      tocChapters starts pages = specTocChapters starts pages.length pages) ∧
    split_pdf_by_toc ["P1", "P2", "P3", "P4", "P5", "P6", "P7", "P8", "P9", "P10"]
        ["Introduction .... 1\nChapter One .... 5\n"] 0 =
      .ok [{ title := "Introduction …", start_page := 1, end_page := 4, text := "P1\nP2\nP3\nP4" },
           { title := "Chapter One …", start_page := 5, end_page := 10, text := "P5\nP6\nP7\nP8\nP9\nP10" }] :=
  ⟨fun pages starts h hs => tocChapters_eq_spec pages starts h hs, by decide⟩

/-- C4 witness: the refinement applied to a concrete start list. -/
theorem C4_toc_materialization_witness :
    tocChapters [⟨"A", 1⟩, ⟨"B", 3⟩] ["p", "q", "r"] =
      specTocChapters [⟨"A", 1⟩, ⟨"B", 3⟩] 3 ["p", "q", "r"] :=
  C4_toc_materialization.1 ["p", "q", "r"] [⟨"A", 1⟩, ⟨"B", 3⟩] (by decide)
    (List.chain'_cons.mpr ⟨by decide, List.chain'_singleton _⟩)

/-- C5: every retained TOC start is an entry's printed page plus the offset,
lies within `[1, total_pages]`, and the retained set is exactly the in-range
entries (a permutation of the filtered list — dropped, never clamped); and
when entries exist but all of them map outside the page range, the splitter
raises the recoverable "TOC pages map outside the PDF range" error rather
than returning zero chapters. -/
theorem C5_toc_offset_mapping :
    (∀ (toc : List TocEntry) (offset : Int) (total : Nat),
      List.Perm (tocStarts toc offset total)
        (toc.filterMap (fun e =>
          if 1 ≤ (e.printed_page : Int) + offset ∧ (e.printed_page : Int) + offset ≤ (total : Int)
          then some ⟨e.title, ((e.printed_page : Int) + offset).toNat⟩ else none))) ∧
    (∀ (toc : List TocEntry) (offset : Int) (total : Nat) (s : TocStart),
      s ∈ tocStarts toc offset total →
      1 ≤ s.pdf_page ∧ s.pdf_page ≤ total ∧
        ∃ e ∈ toc, e.title = s.title ∧ (e.printed_page : Int) + offset = (s.pdf_page : Int)) ∧
    (∀ (pages tocPageTexts : List String) (offset : Int),
      extract_toc_entries_range tocPageTexts ≠ [] →
      (∀ e ∈ extract_toc_entries_range tocPageTexts,
        ¬(1 ≤ (e.printed_page : Int) + offset ∧
          (e.printed_page : Int) + offset ≤ (pages.length : Int))) →
      split_pdf_by_toc pages tocPageTexts offset =
        .error "TOC pages map outside the PDF range. Adjust the printed offset.") := by
  refine ⟨?_, ?_, ?_⟩
  · intro toc offset total
    exact sortByKey_perm _ _
  · intro toc offset total s hs
    have hmem := (sortByKey_perm (fun x : TocStart => x.pdf_page) _).mem_iff.mp hs
    obtain ⟨e, he, hfe⟩ := List.mem_filterMap.mp hmem
    by_cases hcond : 1 ≤ (e.printed_page : Int) + offset ∧
        (e.printed_page : Int) + offset ≤ (total : Int)
    · rw [if_pos hcond] at hfe
      simp only [Option.some.injEq] at hfe
      subst hfe
      refine ⟨?_, ?_, e, he, rfl, ?_⟩
      · show 1 ≤ ((e.printed_page : Int) + offset).toNat
        omega
      · show ((e.printed_page : Int) + offset).toNat ≤ total
        omega
      · show (e.printed_page : Int) + offset = ((((e.printed_page : Int) + offset).toNat : Nat) : Int)
        omega
    · rw [if_neg hcond] at hfe
      exact absurd hfe (by simp)
  · intro pages tocPageTexts offset hne hout
    unfold split_pdf_by_toc
    rw [if_neg (by intro habs; exact hne (List.isEmpty_iff.mp habs))]
    rw [if_pos]
    show (tocStarts (extract_toc_entries_range tocPageTexts) offset pages.length).isEmpty = true
    unfold tocStarts
    rw [show (extract_toc_entries_range tocPageTexts).filterMap (fun e =>
        if 1 ≤ (e.printed_page : Int) + offset ∧
            (e.printed_page : Int) + offset ≤ (pages.length : Int)
        then some (⟨e.title, ((e.printed_page : Int) + offset).toNat⟩ : TocStart) else none) = []
      from List.filterMap_eq_nil_iff.mpr (fun e he => if_neg (hout e he))]
    rfl

/-- C5 witness: a TOC whose only entry maps past the end of a two-page
document makes the splitter raise the recoverable error. -/
theorem C5_toc_offset_mapping_witness :
    split_pdf_by_toc ["x", "y"] ["Far .... 9\n"] 0 =
      .error "TOC pages map outside the PDF range. Adjust the printed offset." :=
  C5_toc_offset_mapping.2.2 ["x", "y"] ["Far .... 9\n"] 0 (by decide) (by decide)

/-- C6: the outline extractor flattens the nested outline depth-first,
silently skipping unresolvable destinations (the three equations); each
resulting chapter's `end_page` equals the next chapter's `start_page`, or the
document's total page count for the last one (exclusive end); and each
outline-derived chapter's body is the newline-joined text of the non-empty
pages in `[start_page, end_page)` with exclusive end. -/
theorem C6_outline_extractor :
    (∀ gs rest : Outline,
      outlineEntries (Outline.group gs rest) = outlineEntries gs ++ outlineEntries rest) ∧
    (∀ (t : String) (rest : Outline),
      outlineEntries (Outline.dest t none rest) = outlineEntries rest) ∧
    (∀ (t : String) (p : Nat) (rest : Outline),
      outlineEntries (Outline.dest t (some p) rest) =
        { title := t, start_page := p } :: outlineEntries rest) ∧
    (∀ (outline : Outline) (total : Nat),
      List.Chain' (fun a b => a.end_page = b.start_page)
        (chapters_from_outline outline total) ∧
      (chapters_from_outline outline total).map (·.end_page) =
        (chapters_from_outline outline total).tail.map (·.start_page) ++
          (if (chapters_from_outline outline total).isEmpty then [] else [total])) ∧
    (∀ (outline : Outline) (pages : List String),
      chapters_from_outline outline pages.length ≠ [] →
      split_pdf_into_chapters outline pages =
        (chapters_from_outline outline pages.length).map (fun c =>
          { title := c.title, start_page := c.start_page, end_page := c.end_page,
            text := chapterText pages c.start_page c.end_page })) ∧
    (∀ (pages : List String) (a b : Nat), b ≤ pages.length →
      chapterText pages a b =
        "\n".intercalate (((pages.drop a).take (b - a)).filter (fun t => t != ""))) := by
  refine ⟨outlineEntries_group, outlineEntries_dest_skip, outlineEntries_dest_keep, ?_, ?_, ?_⟩
  · intro outline total
    exact ⟨assignEnds_chain total _, assignEnds_ends_self total _⟩
  · intro outline pages h
    exact split_pdf_into_chapters_outline outline pages h
  · intro pages a b hb
    exact chapterText_slice pages a b hb

/-- C6 witness: the outline wiring and the body slice evaluated on a concrete
nested outline with an unresolvable entry. -/
theorem C6_outline_extractor_witness :
    split_pdf_into_chapters
        (.dest "A" (some 0) (.group (.dest "skip" none (.dest "B" (some 1) .nil)) .nil))
        ["x", "", "y"] =
      (chapters_from_outline
          (.dest "A" (some 0) (.group (.dest "skip" none (.dest "B" (some 1) .nil)) .nil)) 3).map
        (fun c =>
          { title := c.title, start_page := c.start_page, end_page := c.end_page,
            text := chapterText ["x", "", "y"] c.start_page c.end_page }) ∧
    chapterText ["x", "", "y"] 0 2 =
      "\n".intercalate (((["x", "", "y"].drop 0).take (2 - 0)).filter (fun t => t != "")) :=
  ⟨C6_outline_extractor.2.2.2.2.1
      (.dest "A" (some 0) (.group (.dest "skip" none (.dest "B" (some 1) .nil)) .nil))
      ["x", "", "y"] (by decide),
   C6_outline_extractor.2.2.2.2.2 ["x", "", "y"] 0 2 (by decide)⟩

/-- C8 counterexample: a chapter consisting of a single 2500-character
paragraph is chunked into one block of 2500 characters, so the claimed
1800–2000 character ceiling on blocks does not hold. -/
theorem C8_counterexample :
    buildPieces bigPara = [bigPara] ∧ 2000 < bigPara.length ∧
      ¬(∀ b ∈ buildPieces bigPara, b.length ≤ 2000) := by
  have h1 : buildPieces bigPara = [bigPara] := by
    apply buildPieces_single_para
    intro c hc
    rw [List.eq_of_mem_replicate hc]
    decide
  have h2 : 2000 < bigPara.length := by
    show 2000 < (List.replicate 2500 'a').length
    rw [List.length_replicate]
    omega
  refine ⟨h1, h2, ?_⟩
  intro h
  have := h bigPara (by rw [h1]; simp)
  omega

/-- C8 (amended): each block produced by the paragraph chunker is a
`"\n\n"`-join of consecutive paragraphs whose total paragraph length is at
most 1800 characters, except that a single paragraph longer than the limit
forms its own oversized block; each block is tried up to 3 times against the
translation service (returning the first success, with backoff between
attempts); a block failing all attempts is re-split at sentence boundaries
and translated per sentence, a sentence that still fails being emitted
verbatim rather than dropped; and on the scenario chapter with a mock
service failing exactly for the sentence `Bad sentence.`, the output contains
that sentence untranslated and the other two translated. -/
theorem C8_translation_degradation :
    (∀ text b : String, b ∈ buildPieces text →
      ∃ ps : List String, ps ≠ [] ∧ b = joinParas ps ∧
        (ps.length = 1 ∨ (ps.map String.length).sum ≤ 1800)) ∧
    (∀ (svc : String → Nat → Option String) (chunk : String),
      (tryTranslate svc chunk = none ↔ ∀ a, a < 3 → svc chunk a = none)) ∧
    (∀ (svc : String → Nat → Option String) (chunk r : String),
      tryTranslate svc chunk = some r →
        ∃ a, a < 3 ∧ svc chunk a = some r ∧ ∀ b, b < a → svc chunk b = none) ∧
    (∀ (svc : String → Nat → Option String) (block s : String),
      s ∈ splitSentences block → (pyStrip s).isEmpty = false →
      tryTranslate svc (pyStrip s) = none →
      pyStrip s ∈ sentenceResults svc block) ∧
    translate_text
        (fun s _ => if s = "First sentence. Bad sentence. Third sentence." ||
            s = "Bad sentence." then none else some ("T:" ++ s))
        "First sentence. Bad sentence. Third sentence." =
      "T:First sentence. Bad sentence. T:Third sentence." := by
  refine ⟨?_, tryTranslate_none_iff, tryTranslate_some, ?_, by decide⟩
  · intro text b hb
    exact buildPiecesAux_inv (splitParas text) [] [] 0 (by simp) rfl (Or.inl rfl) b hb
  · intro svc block s hs hemp htr
    rw [sentenceResults_eq]
    refine List.mem_filterMap.mpr ⟨s, hs, ?_⟩
    rw [if_neg (by rw [hemp]; exact Bool.false_ne_true), htr]
    rfl

/-- C8 witness: a service failing every attempt yields `none` from the retry
loop, and the failing sentence of the scenario is emitted verbatim in the
sentence results. -/
theorem C8_translation_degradation_witness :
    tryTranslate (fun _ _ => none) "abc" = none ∧
    pyStrip "Bad sentence." ∈ sentenceResults
        (fun s _ => if s = "First sentence. Bad sentence. Third sentence." ||
            s = "Bad sentence." then none else some ("T:" ++ s))
        "First sentence. Bad sentence. Third sentence." :=
  ⟨(C8_translation_degradation.2.1 (fun _ _ => none) "abc").mpr (fun a _ => rfl),
   C8_translation_degradation.2.2.2.1
     (fun s _ => if s = "First sentence. Bad sentence. Third sentence." ||
         s = "Bad sentence." then none else some ("T:" ++ s))
     "First sentence. Bad sentence. Third sentence." "Bad sentence."
     (by decide) (by decide) (by decide)⟩

/-- C9: the worker pool size is clamped to `[1, 8]` with default 3 (and
Python's `or` sends an explicit 0 to the default, still inside the range);
for every completion order of the parallel futures that is a permutation of
the chapter indices, the result list has one slot per chapter and slot `i`
holds the translation of chapter `i`, or the unmodified original chapter `i`
when that worker failed — independent of the completion order. -/
theorem C9_parallel_translation :
    (∀ mw : Int, 1 ≤ clampWorkers mw ∧ clampWorkers mw ≤ 8) ∧
    clampWorkers 3 = 3 ∧ clampWorkers 0 = 3 ∧
    (∀ (svc : String → Nat → Option String) (chapters : List XChapter)
      (failAt : Nat → Bool) (order : List Nat),
      List.Perm order (List.range chapters.length) →
      translate_chapters_parallel svc chapters failAt order =
        (List.range chapters.length).map (fun i => some (slotVal svc chapters failAt i)) ∧
      (translate_chapters_parallel svc chapters failAt order).length = chapters.length) := by
  refine ⟨?_, rfl, rfl, ?_⟩
  · intro mw
    unfold clampWorkers
    have h1 : (1 : Int) ≤ max 1 (min (if mw = 0 then 3 else mw) 8) := le_max_left _ _
    have h2 : max 1 (min (if mw = 0 then 3 else mw) 8) ≤ 8 :=
      max_le (by omega) (min_le_right _ _)
    omega
  · intro svc chapters failAt order hperm
    have horder : ∀ j ∈ order, j < (List.replicate chapters.length
        (none : Option XChapter)).length := by
      intro j hj
      rw [List.length_replicate]
      exact List.mem_range.mp (hperm.mem_iff.mp hj)
    constructor
    · apply List.ext_getElem?
      intro i
      show (order.foldl (fillSlot svc chapters failAt)
        (List.replicate chapters.length none))[i]? = _
      rw [fillFold_getElem svc chapters failAt order _ i horder]
      by_cases hi : i < chapters.length
      · rw [if_pos (hperm.mem_iff.mpr (List.mem_range.mpr hi))]
        rw [List.getElem?_map, List.getElem?_range hi]
        rfl
      · rw [if_neg (fun habs => hi (List.mem_range.mp (hperm.mem_iff.mp habs)))]
        rw [List.getElem?_eq_none (by rw [List.length_replicate]; omega),
          List.getElem?_eq_none (by rw [List.length_map, List.length_range]; omega)]
    · show (order.foldl (fillSlot svc chapters failAt)
        (List.replicate chapters.length none)).length = chapters.length
      rw [fillFold_length svc chapters failAt order, List.length_replicate]

/-- C9 witness: a two-chapter batch completed out of order, with the first
worker failing, still yields the in-order result with the original first
chapter substituted. -/
theorem C9_parallel_translation_witness :
    translate_chapters_parallel (fun s _ => some s) [⟨"t1", "x"⟩, ⟨"t2", "y"⟩]
        (fun i => i == 0) [1, 0] =
      (List.range 2).map (fun i =>
        some (slotVal (fun s _ => some s) [⟨"t1", "x"⟩, ⟨"t2", "y"⟩] (fun i => i == 0) i)) :=
  (C9_parallel_translation.2.2.2 (fun s _ => some s) [⟨"t1", "x"⟩, ⟨"t2", "y"⟩]
    (fun i => i == 0) [1, 0] (by decide)).1

/-- C10: `split_pdf_into_chapters` never returns zero chapters: when the
outline yields no chapters it falls back to the heading heuristics, and when
no heading is detected the heuristics return the single chapter `Document`
with `start_page` 0 and `end_page` equal to the page count. -/
theorem C10_split_nonempty :
    (∀ (outline : Outline) (pages : List String),
      split_pdf_into_chapters outline pages ≠ []) ∧
    (∀ pages : List String, (∀ p ∈ pages, findHeadingLine p = none) →
      chapters_by_heuristics pages =
        [{ title := "Document", start_page := 0, end_page := pages.length }]) ∧
    (∀ (outline : Outline) (pages : List String),
      chapters_from_outline outline pages.length = [] →
      split_pdf_into_chapters outline pages =
        (chapters_by_heuristics pages).map (fun c =>
          { title := c.title, start_page := c.start_page, end_page := c.end_page,
            text := chapterText pages c.start_page c.end_page })) :=
  ⟨split_pdf_into_chapters_ne_nil, chapters_by_heuristics_no_heading,
   split_pdf_into_chapters_fallback⟩

/-- C10 witness: a heading-free two-page document collapses to the single
`Document` chapter. -/
theorem C10_split_nonempty_witness :
    chapters_by_heuristics ["just text", "more text"] =
      [{ title := "Document", start_page := 0, end_page := 2 }] :=
  C10_split_nonempty.2.1 ["just text", "more text"] (by decide)

end DocExtract
